import Mathlib

/-!
Verification of the bolinas chart parser core (`parser.py`).

The engine (`Parser.parse`), the goal test (`Parser.successful_parse`), the
forest extraction (`cky_chart`) and the stream entry points
(`parse_strings`, `parse_graphs`) are translated from the source.  The item
algebra (module `item`: `CfgItem`, `HergItem`, `CfgHergItem`) and the rule
representation (module `rule`) are not part of the source tree; they are
modelled from the specification's data-model section and are marked as such.

Python features that matter to the translation:
  * `if string:` tests truthiness, so an empty string behaves like `None`;
  * `assert` failures, missing names, wrong-arity calls and attribute errors
    are modelled by an explicit error type `PyErr`;
  * Python `set`s are modelled as insertion-ordered duplicate-free lists
    (`pyAdd`, `pyDedup`); `set.pop()` (whose order Python leaves
    unspecified) is modelled as taking the first inserted element;
  * the unbounded `while` loops are given explicit fuel; running out of
    fuel is reported as the pseudo-error `PyErr.outOfFuel`.
-/

/-- Python-style exceptions (plus fuel exhaustion standing in for
non-termination of the unbounded loops). -/
inductive PyErr : Type
  | assertionError
  | attributeError
  | indexError
  | nameError
  | typeError
  | outOfFuel
deriving DecidableEq, Repr

deriving instance DecidableEq for Except

/-- Python `set.add` on an insertion-ordered duplicate-free list. -/
def pyAdd {α : Type} [DecidableEq α] (l : List α) (x : α) : List α :=
  if x ∈ l then l else l ++ [x]

/-- Python `set.remove` (first occurrence; lists kept duplicate-free). -/
def pyRemove {α : Type} [DecidableEq α] (l : List α) (x : α) : List α :=
  l.filter (fun y => y ≠ x)

/-- Building a Python `set` from a list: keep first occurrences in order. -/
def pyDedup {α : Type} [DecidableEq α] (l : List α) : List α :=
  l.foldl pyAdd []

/-- Modelled from the spec (data model, "Rule"): one right-hand-side element,
a terminal word, a terminal edge label, or a nonterminal slot carrying the
index that distinguishes repeated occurrences of the same symbol.  The
`rule` module is not in the source tree. -/
inductive RhsElem : Type
  | word (w : String)
  | edge (label : String)
  | nt (sym : String) (idx : Nat)
deriving DecidableEq, Repr

/-- Modelled from the spec (data model, "Rule"): unique id, left-hand symbol,
ordered right-hand side, scalar weight.  The `rule` module is not in the
source tree. -/
structure Rule : Type where
  rule_id : Nat
  symbol : String
  rhs : List RhsElem
  weight : Int
deriving DecidableEq, Repr

/-- A labeled hyperedge, as exposed by `graph.triples(...)`: the component
`edge[1]` used by the parser's lookup table is the label. -/
structure Edge : Type where
  src : String
  label : String
  tails : List String
deriving DecidableEq, Repr

/-- The input hypergraph: the list of its triples. -/
structure Graph : Type where
  triples : List Edge
deriving DecidableEq, Repr

/-- Modelled from the spec (data model, "String item"): a rule, the dot
position counting consumed right-hand-side elements, and the contiguous
span `[i, j)` of consumed string positions (`none` before the first
terminal or completed nonterminal contributes a span).  The `item` module
is not in the source tree. -/
structure CfgItem : Type where
  rule : Rule
  dot : Nat
  span : Option (Nat × Nat)
deriving DecidableEq, Repr

def CfgItem.i (c : CfgItem) : Nat :=
  match c.span with
  | some (i, _) => i
  | none => 0

def CfgItem.j (c : CfgItem) : Nat :=
  match c.span with
  | some (_, j) => j
  | none => 0

def CfgItem.isClosed (c : CfgItem) : Bool :=
  c.rule.rhs.length ≤ c.dot

def CfgItem.outside (c : CfgItem) : Option RhsElem :=
  c.rule.rhs[c.dot]?

/-- Modelled from the spec: shifting must never reuse a string position, so
a shift extends the right end of the span (or starts a fresh span for an
item that has consumed nothing yet). -/
def CfgItem.can_shift (c : CfgItem) (w : String) (idx : Nat) : Bool :=
  match c.outside with
  | some (RhsElem.word w') =>
      decide (w' = w) && (match c.span with
                          | none => true
                          | some (_, j) => decide (idx = j))
  | _ => false

def CfgItem.shift (c : CfgItem) (_w : String) (idx : Nat) : CfgItem :=
  { c with dot := c.dot + 1,
           span := some (match c.span with
                         | none => (idx, idx + 1)
                         | some (i, j) => (i, j + 1)) }

/-- Modelled from the spec: substituting a closed sub-item for the next
nonterminal slot; the candidate's span must start where this item's span
ends. -/
def CfgItem.can_complete (c : CfgItem) (cand : CfgItem) : Bool :=
  cand.isClosed &&
  (match c.outside with
   | some (RhsElem.nt s _) => decide (cand.rule.symbol = s)
   | _ => false) &&
  (match c.span, cand.span with
   | _, none => true
   | none, some _ => true
   | some (_, j), some (ci, _) => decide (ci = j))

def CfgItem.complete (c : CfgItem) (cand : CfgItem) : CfgItem :=
  { c with dot := c.dot + 1,
           span := match c.span, cand.span with
                   | none, sp => sp
                   | sp, none => sp
                   | some (i, _), some (_, cj) => some (i, cj) }

/-- Modelled from the spec (data model, "Graph item"): a rule, the dot
position, and the set of hypergraph edges matched so far.  The `item`
module is not in the source tree; the node-identity bookkeeping it keeps
for boundary nodes is not modelled (no claim depends on it). -/
structure HergItem : Type where
  rule : Rule
  dot : Nat
  shifted : List Edge
deriving DecidableEq, Repr

def HergItem.isClosed (h : HergItem) : Bool :=
  h.rule.rhs.length ≤ h.dot

def HergItem.outside (h : HergItem) : Option RhsElem :=
  h.rule.rhs[h.dot]?

/-- Modelled from the spec: a shift must never reuse a graph edge already
consumed by this item. -/
def HergItem.can_shift (h : HergItem) (e : Edge) : Bool :=
  match h.outside with
  | some (RhsElem.edge l) => e.label = l ∧ e ∉ h.shifted
  | _ => false

def HergItem.shift (h : HergItem) (e : Edge) : HergItem :=
  { h with dot := h.dot + 1, shifted := h.shifted ++ [e] }

/-- Modelled from the spec: completion must reject candidates whose matched
edge sets overlap with the item's already-matched edges. -/
def HergItem.can_complete (h : HergItem) (cand : HergItem) : Bool :=
  cand.isClosed &&
  (match h.outside with
   | some (RhsElem.nt s _) => decide (cand.rule.symbol = s)
   | _ => false) &&
  cand.shifted.all (fun e => decide (e ∉ h.shifted))

def HergItem.complete (h : HergItem) (cand : HergItem) : HergItem :=
  { h with dot := h.dot + 1, shifted := h.shifted ++ cand.shifted }

/-- Modelled from the spec (data model, "Synchronous item"): a paired string
item and graph item advancing in lockstep under one rule; represented by
the shared rule and dot plus both coverage components.  The `item` module
is not in the source tree. -/
structure SyncItem : Type where
  rule : Rule
  dot : Nat
  span : Option (Nat × Nat)
  shifted : List Edge
deriving DecidableEq, Repr

def SyncItem.cfg_item (s : SyncItem) : CfgItem :=
  { rule := s.rule, dot := s.dot, span := s.span }

def SyncItem.herg_item (s : SyncItem) : HergItem :=
  { rule := s.rule, dot := s.dot, shifted := s.shifted }

def SyncItem.isClosed (s : SyncItem) : Bool :=
  s.rule.rhs.length ≤ s.dot

def SyncItem.outside (s : SyncItem) : Option RhsElem :=
  s.rule.rhs[s.dot]?

def SyncItem.can_shift_word (s : SyncItem) (w : String) (idx : Nat) : Bool :=
  s.cfg_item.can_shift w idx

def SyncItem.shift_word (s : SyncItem) (w : String) (idx : Nat) : SyncItem :=
  { s with dot := s.dot + 1,
           span := (s.cfg_item.shift w idx).span }

def SyncItem.can_shift_edge (s : SyncItem) (e : Edge) : Bool :=
  s.herg_item.can_shift e

def SyncItem.shift_edge (s : SyncItem) (e : Edge) : SyncItem :=
  { s with dot := s.dot + 1, shifted := s.shifted ++ [e] }

def SyncItem.can_complete (s : SyncItem) (cand : SyncItem) : Bool :=
  cand.isClosed &&
  (match s.outside with
   | some (RhsElem.nt sym _) => decide (cand.rule.symbol = sym)
   | _ => false) &&
  (match s.span, cand.span with
   | _, none => true
   | none, some _ => true
   | some (_, j), some (ci, _) => decide (ci = j)) &&
  cand.shifted.all (fun e => decide (e ∉ s.shifted))

def SyncItem.complete (s : SyncItem) (cand : SyncItem) : SyncItem :=
  { s with dot := s.dot + 1,
           span := (match s.span, cand.span with
                    | none, sp => sp
                    | sp, none => sp
                    | some (i, _), some (_, cj) => some (i, cj)),
           shifted := s.shifted ++ cand.shifted }

/-- The closed set of item variants (spec: one polymorphic item abstraction
over string items, graph items and synchronous items). -/
inductive Item : Type
  | cfg (c : CfgItem)
  | herg (h : HergItem)
  | sync (s : SyncItem)
deriving DecidableEq, Repr

def Item.rule : Item → Rule
  | .cfg c => c.rule
  | .herg h => h.rule
  | .sync s => s.rule

def Item.closed : Item → Bool
  | .cfg c => c.isClosed
  | .herg h => h.isClosed
  | .sync s => s.isClosed

def Item.outside : Item → Option RhsElem
  | .cfg c => c.outside
  | .herg h => h.outside
  | .sync s => s.outside

def Item.outside_is_nonterminal (it : Item) : Bool :=
  match it.outside with
  | some (RhsElem.nt _ _) => true
  | _ => false

def Item.outside_symbol (it : Item) : String :=
  match it.outside with
  | some (RhsElem.nt s _) => s
  | _ => ""

def Item.outside_nt_index (it : Item) : Nat :=
  match it.outside with
  | some (RhsElem.nt _ i) => i
  | _ => 0

def Item.outside_word (it : Item) : String :=
  match it.outside with
  | some (RhsElem.word w) => w
  | _ => ""

def Item.outside_edge (it : Item) : String :=
  match it.outside with
  | some (RhsElem.edge l) => l
  | _ => ""

/-- Accessor `outside_word_is_nonterminal`: the next unmatched element is not a
terminal word. -/
def Item.outside_word_is_nonterminal (it : Item) : Bool :=
  match it.outside with
  | some (RhsElem.word _) => false
  | _ => true

/-- Accessor `outside_edge_is_nonterminal`: the next unmatched element is not a
terminal edge. -/
def Item.outside_edge_is_nonterminal (it : Item) : Bool :=
  match it.outside with
  | some (RhsElem.edge _) => false
  | _ => true

/-- The value `item.j - item.i` (and `item.cfg_item.j - item.cfg_item.i` for
synchronous items), as used by `successful_parse`. -/
def Item.spanLen : Item → Int
  | .cfg c => (c.j : Int) - (c.i : Int)
  | .herg _ => 0
  | .sync s => (s.cfg_item.j : Int) - (s.cfg_item.i : Int)

/-- The value `len(item.shifted)` (and `len(item.herg_item.shifted)` for synchronous
items), as used by `successful_parse`. -/
def Item.shiftedLen : Item → Nat
  | .cfg _ => 0
  | .herg h => h.shifted.length
  | .sync s => s.shifted.length

/-- A throwaway item used as the default of partial list accesses that the
source guards by asserts. -/
def dItem : Item := Item.cfg ⟨⟨0, "", [], 1⟩, 0, none⟩

def Item.can_shift_word (it : Item) (w : String) (idx : Nat) : Bool :=
  match it with
  | .cfg c => c.can_shift w idx
  | .herg _ => false
  | .sync s => s.can_shift_word w idx

def Item.shift_word (it : Item) (w : String) (idx : Nat) : Item :=
  match it with
  | .cfg c => .cfg (c.shift w idx)
  | .herg h => .herg h
  | .sync s => .sync (s.shift_word w idx)

def Item.can_shift_edge (it : Item) (e : Edge) : Bool :=
  match it with
  | .cfg _ => false
  | .herg h => h.can_shift e
  | .sync s => s.can_shift_edge e

def Item.shift_edge (it : Item) (e : Edge) : Item :=
  match it with
  | .cfg c => .cfg c
  | .herg h => .herg (h.shift e)
  | .sync s => .sync (s.shift_edge e)

def Item.can_complete (it : Item) (cand : Item) : Bool :=
  match it, cand with
  | .cfg c, .cfg d => c.can_complete d
  | .herg h, .herg g => h.can_complete g
  | .sync s, .sync t => s.can_complete t
  | _, _ => false

def Item.complete (it : Item) (cand : Item) : Item :=
  match it, cand with
  | .cfg c, .cfg d => .cfg (c.complete d)
  | .herg h, .herg g => .herg (h.complete g)
  | .sync s, .sync t => .sync (s.complete t)
  | _, _ => it

/-- The grammar as the parser consumes it: `grammar.values()` in rule-id
insertion order, plus the designated start symbol. -/
structure Grammar : Type where
  rules : List Rule
  start_symbol : String
deriving DecidableEq, Repr

/-- A chart key: an item, or the distinguished goal key `'START'`. -/
inductive ChartKey : Type
  | start
  | item (it : Item)
deriving DecidableEq, Repr

/-- A production: the tuple of antecedent items recorded for a deduction
step (`(item,)` for shifts and the goal, `(item, oitem)` for completions). -/
abbrev Production : Type := List Item

/-- Truthiness of the optional string input (`if string:`): `None` and the
empty string are both falsy. -/
def stringTruthy : Option (List String) → Bool
  | none => false
  | some l => !l.isEmpty

/-- Truthiness of the optional graph input (`if graph:`): a supplied graph
object is truthy. -/
def graphTruthy : Option Graph → Bool
  | none => false
  | some _ => true

/-- Size `string_size`: `len(string)` if the string is truthy, else `-1`. -/
def stringSizeOf (s : Option (List String)) : Int :=
  match s with
  | some l => if l.isEmpty then -1 else (l.length : Int)
  | none => -1

/-- Size `graph_size`: the number of triples if the graph is truthy, else `-1`. -/
def graphSizeOf (g : Option Graph) : Int :=
  match g with
  | some gr => (gr.triples.length : Int)
  | none => -1

/-- Which item class `parse` seeds axioms from (`CfgHergItem`, `CfgItem`
or `HergItem`), decided by input truthiness. -/
inductive Mode : Type
  | sync
  | cfg
  | herg
deriving DecidableEq, Repr

def modeOf (s : Option (List String)) (g : Option Graph) : Mode :=
  if stringTruthy s && graphTruthy g then .sync
  else if stringTruthy s then .cfg
  else .herg

/-- The axiom item constructed for a rule (`axiom_class(rule, ...)`). -/
def axiomItem (s : Option (List String)) (g : Option Graph) (r : Rule) : Item :=
  match modeOf s g with
  | .sync => .sync ⟨r, 0, none, []⟩
  | .cfg => .cfg ⟨r, 0, none⟩
  | .herg => .herg ⟨r, 0, []⟩

/-- Translation of `Parser.successful_parse`: the goal test.  Dispatches on input
truthiness exactly as the source does and compares coverage against the
pre-computed sizes. -/
def successfulParse (startSym : String) (s : Option (List String))
    (g : Option Graph) (stringSize graphSize : Int) (it : Item) : Bool :=
  if it.rule.symbol ≠ startSym then false
  else if stringTruthy s && graphTruthy g then
    decide (it.spanLen = stringSize) && decide ((it.shiftedLen : Int) = graphSize)
  else if stringTruthy s then
    decide (it.spanLen = stringSize)
  else
    decide ((it.shiftedLen : Int) = graphSize)

/-- Per-call configuration: everything `parse` computes before its main
loop and never mutates afterwards. -/
structure PConfig : Type where
  startSymbol : String
  string : Option (List String)
  graph : Option Graph
  stringSize : Int
  graphSize : Int
  wordLookup : String → List Nat
  edgeLookup : String → List Edge

/-- The engine working set of one `parse` call.  `trace` is a ghost field
recording, in order, every pair on which `item.can_complete(oitem)` was
actually evaluated; it affects nothing else. -/
structure PState : Type where
  queue : List Item
  pending : List Item
  attempted : List (Item × Item)
  visited : List Item
  chart : ChartKey → List Production
  ntLookup : String → List Item
  revLookup : String → List Item
  success : Bool
  trace : List (Item × Item)

/-- Operation `chart[key].add(prod)` on the defaultdict-of-sets chart. -/
def chartAdd (ch : ChartKey → List Production) (k : ChartKey)
    (p : Production) : ChartKey → List Production :=
  fun k' => if k' = k then pyAdd (ch k) p else ch k'

/-- Operation `table[sym].add(item)` on a defaultdict-of-sets lookup table. -/
def lookupAdd (t : String → List Item) (sym : String) (it : Item) :
    String → List Item :=
  fun s => if s = sym then pyAdd (t s) it else t s

/-- Wake-up of one waiting item: re-enqueue it unless already pending. -/
def wakeF (s : PState) (ritem : Item) : PState :=
  if ritem ∈ s.pending then s
  else { s with queue := s.queue ++ [ritem],
                pending := pyAdd s.pending ritem }

/-- The closed-item branch of the main loop: goal test and goal recording,
registration in the completed-by-symbol index, and wake-up of all items
waiting on this item's symbol. -/
def stepClosed (cfgC : PConfig) (st : PState) (item : Item) : PState :=
  let st1 :=
    if successfulParse cfgC.startSymbol cfgC.string cfgC.graph
        cfgC.stringSize cfgC.graphSize item then
      { st with chart := chartAdd st.chart ChartKey.start [item],
                success := true }
    else st
  let st2 := { st1 with ntLookup := lookupAdd st1.ntLookup item.rule.symbol item }
  (st2.revLookup item.rule.symbol).foldl wakeF st2

/-- One completion attempt of the open `item` against a completed
candidate `oitem`: the `attempted` memo is consulted, and extended
*before* `can_complete` is evaluated; the ghost `trace` records the
evaluation. -/
def completeF (item : Item) (s : PState) (oitem : Item) : PState :=
  if (item, oitem) ∈ s.attempted then s
  else
    let s1 := { s with attempted := pyAdd s.attempted (item, oitem),
                       trace := s.trace ++ [(item, oitem)] }
    if !item.can_complete oitem then s1
    else
      let nitem := item.complete oitem
      let s2 := { s1 with chart := chartAdd s1.chart (ChartKey.item nitem) [item, oitem] }
      if nitem ∈ s2.pending ∨ nitem ∈ s2.visited then s2
      else { s2 with queue := s2.queue ++ [nitem],
                     pending := pyAdd s2.pending nitem }

/-- The completion branch: register the open item as waiting, then try every
already-completed item under its outside symbol. -/
def stepComplete (st : PState) (item : Item) : PState :=
  let st1 := { st with revLookup := lookupAdd st.revLookup item.outside_symbol item }
  (st1.ntLookup item.outside_symbol).foldl (completeF item) st1

/-- Record one shifted item. -/
def shiftRecF (item : Item) (s : PState) (nitem : Item) : PState :=
  let s1 := { s with chart := chartAdd s.chart (ChartKey.item nitem) [item] }
  if nitem ∈ s1.pending ∨ nitem ∈ s1.visited then s1
  else { s1 with queue := s1.queue ++ [nitem],
                 pending := pyAdd s1.pending nitem }

/-- Record the shifted items produced by one shift step. -/
def recordShifts (st : PState) (item : Item) (newItems : List Item) : PState :=
  newItems.foldl (shiftRecF item) st

/-- The shift branch, dispatching on input truthiness exactly as the
source: synchronous parses choose between word and edge shifts (with the
`assert not item.outside_edge_is_nonterminal`), string parses shift words,
and graph parses first `assert graph`. -/
def stepShift (cfgC : PConfig) (st : PState) (item : Item) :
    Except PyErr PState :=
  if stringTruthy cfgC.string && graphTruthy cfgC.graph then
    if !item.outside_word_is_nonterminal then
      let newItems := ((cfgC.wordLookup item.outside_word).filter
          (fun idx => item.can_shift_word item.outside_word idx)).map
          (fun idx => item.shift_word item.outside_word idx)
      .ok (recordShifts st item newItems)
    else if item.outside_edge_is_nonterminal then
      .error .assertionError
    else
      let newItems := ((cfgC.edgeLookup item.outside_edge).filter
          item.can_shift_edge).map item.shift_edge
      .ok (recordShifts st item newItems)
  else if stringTruthy cfgC.string then
    let newItems := ((cfgC.wordLookup item.outside_word).filter
        (fun idx => item.can_shift_word item.outside_word idx)).map
        (fun idx => item.shift_word item.outside_word idx)
    .ok (recordShifts st item newItems)
  else if !graphTruthy cfgC.graph then
    .error .assertionError
  else
    let newItems := ((cfgC.edgeLookup item.outside_edge).filter
        item.can_shift_edge).map item.shift_edge
    .ok (recordShifts st item newItems)

/-- One popped item's processing: the closed / complete / shift trichotomy
of the main loop body. -/
def processItem (cfgC : PConfig) (st : PState) (item : Item) :
    Except PyErr PState :=
  if item.closed then .ok (stepClosed cfgC st item)
  else if item.outside_is_nonterminal then .ok (stepComplete st item)
  else stepShift cfgC st item

/-- The head-of-queue bookkeeping of one loop iteration: dequeue, drop
from `pending`, mark `visited`. -/
def popState (st : PState) (item : Item) (rest : List Item) : PState :=
  { st with queue := rest,
            pending := pyRemove st.pending item,
            visited := pyAdd st.visited item }

/-- The main BFS loop (`while queue:`), with fuel.  Running out of fuel
returns the state reached so far; all invariant theorems hold at every
fuel. -/
def parseLoop (cfgC : PConfig) : Nat → PState → Except PyErr PState
  | 0, st => .ok st
  | fuel + 1, st =>
    match st.queue with
    | [] => .ok st
    | item :: rest =>
      match processItem cfgC (popState st item rest) item with
      | .error e => .error e
      | .ok st1 => parseLoop cfgC fuel st1

/-- The pre-loop setup of `parse`: sizes, terminal lookup tables. -/
def mkConfig (g : Grammar) (s : Option (List String)) (gr : Option Graph) :
    PConfig :=
  { startSymbol := g.start_symbol
    string := s
    graph := gr
    stringSize := stringSizeOf s
    graphSize := graphSizeOf gr
    wordLookup := fun w =>
      match s with
      | some l => (List.range l.length).filter (fun i => l.getD i "" = w)
      | none => []
    edgeLookup := fun lbl =>
      match gr with
      | some G => G.triples.filter (fun e => e.label = lbl)
      | none => [] }

/-- Seed one rule's axiom: enqueue it, mark it pending, and register it as
waiting when its next element is a nonterminal. -/
def seedF (s : Option (List String)) (gr : Option Graph)
    (st : PState) (r : Rule) : PState :=
  let ax := axiomItem s gr r
  let st1 := { st with queue := st.queue ++ [ax],
                       pending := pyAdd st.pending ax }
  if ax.outside_is_nonterminal then
    { st1 with revLookup := lookupAdd st1.revLookup ax.outside_symbol ax }
  else st1

/-- The empty engine working set. -/
def emptyState : PState :=
  { queue := [], pending := [], attempted := [], visited := [],
    chart := fun _ => [], ntLookup := fun _ => [],
    revLookup := fun _ => [], success := false, trace := [] }

/-- Axiom seeding: one axiom per rule, in grammar order. -/
def initState (g : Grammar) (s : Option (List String)) (gr : Option Graph) :
    PState :=
  g.rules.foldl (seedF s gr) emptyState

/-- Translation of `Parser.parse`: run the loop from the seeded state. -/
def parseState (g : Grammar) (s : Option (List String)) (gr : Option Graph)
    (fuel : Nat) : Except PyErr PState :=
  parseLoop (mkConfig g s gr) fuel (initState g s gr)

/-- The raw chart returned by `parse` (empty if the call raised). -/
def chartOf (g : Grammar) (s : Option (List String)) (gr : Option Graph)
    (fuel : Nat) : ChartKey → List Production :=
  match parseState g s gr fuel with
  | .ok st => st.chart
  | .error _ => fun _ => []

/-- The visited set at the end of the call (empty if the call raised). -/
def visitedOf (g : Grammar) (s : Option (List String)) (gr : Option Graph)
    (fuel : Nat) : List Item :=
  match parseState g s gr fuel with
  | .ok st => st.visited
  | .error _ => []

/-- The ghost trace of `can_complete` evaluations (empty if the call
raised). -/
def traceOf (g : Grammar) (s : Option (List String)) (gr : Option Graph)
    (fuel : Nat) : List (Item × Item) :=
  match parseState g s gr fuel with
  | .ok st => st.trace
  | .error _ => []

/-- The `attempted` memo at the end of the call. -/
def attemptedOf (g : Grammar) (s : Option (List String)) (gr : Option Graph)
    (fuel : Nat) : List (Item × Item) :=
  match parseState g s gr fuel with
  | .ok st => st.attempted
  | .error _ => []

/-- The exception raised by the call, if any. -/
def parseErr (g : Grammar) (s : Option (List String)) (gr : Option Graph)
    (fuel : Nat) : Option PyErr :=
  match parseState g s gr fuel with
  | .ok _ => none
  | .error e => some e

/-- A key of the regrouped production map `real_productions`: the literal
key `'START'` or an `(outside symbol, slot index)` pair. -/
inductive RPKey : Type
  | start
  | sym (s : String) (idx : Nat)
deriving DecidableEq, Repr

/-- The regrouped production map of one retained item, as an
insertion-ordered dict. -/
abbrev RealProds : Type := List (RPKey × List Item)

instance : DecidableEq (List (ChartKey × RealProds)) := inferInstance

/-- Python dict assignment `d[k] = v`: replace in place if present, else
append. -/
def insertRP (acc : RealProds) (k : RPKey) (v : List Item) : RealProds :=
  if acc.any (fun kv => kv.1 = k) then
    acc.map (fun kv => if kv.1 = k then (k, v) else kv)
  else acc ++ [(k, v)]

/-- The symbol of a chart key's rule (the goal key never reaches the
places where this is consulted with a meaningful value). -/
def keySymbol : ChartKey → String
  | .start => ""
  | .item it => it.rule.symbol

/-- The backward walk of `cky_chart` down one retained item's derivation
chain (`while True:` over `pitem`), building `real_productions`.

Error cases are the source's own: the silenced-assert region raises
`assertionError` on mixed arity (`assert len(lengths) == 1`) and on a
uniform split arity other than 1 or 2 (`assert split_len == 2`); the
`'PARTIAL'` branch raises `assertionError` unless exactly one production
is recorded and then `attributeError`, because `real_productions` is a
dict and the branch calls `.append` on it; an empty production tuple
would make `x[0]` raise `indexError`.  `set.pop()` on the `lefts` set is
modelled as the first inserted element. -/
def walkAux (chart : ChartKey → List Production) :
    Nat → ChartKey → RealProds → Except PyErr RealProds
  | 0, _, _ => .error .outOfFuel
  | fuel + 1, pitem, acc =>
    let prods := chart pitem
    if prods = [] then .ok acc
    else if pitem = ChartKey.start then
      .ok (insertRP acc RPKey.start prods.flatten)
    else if keySymbol pitem = "PARTIAL" then
      if prods.length ≠ 1 then .error .assertionError
      else if prods.headD [] = [] then .ok acc
      else .error .attributeError
    else if prods.any (fun p => p = []) then .error .indexError
    else
      let lefts := pyDedup (prods.map (fun p => p.headD dItem))
      let lengths := pyDedup (prods.map (fun p => p.length))
      if lengths.length ≠ 1 then .error .assertionError
      else
        let splitLen : Nat := lengths.headD 0
        if splitLen = 1 then
          walkAux chart fuel (ChartKey.item (lefts.headD dItem)) acc
        else if splitLen ≠ 2 then .error .assertionError
        else
          let firstLeft := (prods.headD []).headD dItem
          let key := RPKey.sym firstLeft.outside_symbol firstLeft.outside_nt_index
          let seconds := prods.map (fun p => p.getD 1 dItem)
          walkAux chart fuel (ChartKey.item (lefts.headD dItem))
            (insertRP acc key seconds)

/-- The reachability pass of `cky_chart`: stack traversal from `'START'`,
pushing every antecedent of every production of every popped key
(closed or not), collecting the visited keys in insertion order. -/
def reachAux (chart : ChartKey → List Production) :
    Nat → List ChartKey → List ChartKey → Option (List ChartKey)
  | 0, _, _ => none
  | _ + 1, [], visited => some visited
  | fuel + 1, k :: stack, visited =>
    if k ∈ visited then reachAux chart fuel stack visited
    else
      reachAux chart fuel
        (((chart k).flatten.map ChartKey.item).reverse ++ stack)
        (visited ++ [k])

/-- Whether a visited key is retained as a forest node: the goal key or a
closed item (`if not (item == 'START' or item.closed): continue`). -/
def ckyKeep : ChartKey → Bool
  | .start => true
  | .item it => it.closed

/-- The per-key step of the pruned-chart construction: unretained keys are
skipped, retained keys get their regrouped production map, and keys whose
map is empty are dropped. -/
def buildF (chart : ChartKey → List Production) (fuel : Nat)
    (acc : List (ChartKey × RealProds)) (k : ChartKey) :
    Except PyErr (List (ChartKey × RealProds)) :=
  if !ckyKeep k then .ok acc
  else
    match walkAux chart fuel k [] with
    | .error e => .error e
    | .ok rp => if rp = [] then .ok acc else .ok (acc ++ [(k, rp)])

/-- Translation of `cky_chart`: reachability pruning plus per-item production regrouping.
Items whose regrouped production map comes out empty are dropped. -/
def ckyChart (fuel : Nat) (chart : ChartKey → List Production) :
    Except PyErr (List (ChartKey × RealProds)) :=
  match reachAux chart fuel [ChartKey.start] [] with
  | none => .error .outOfFuel
  | some visitItems => visitItems.foldlM (buildF chart fuel) []

/-- The visited list of the reachability pass (empty if its fuel ran
out). -/
def reachList (fuel : Nat) (chart : ChartKey → List Production) :
    List ChartKey :=
  (reachAux chart fuel [ChartKey.start] []).getD []

/-- The key list of the pruned chart (empty if extraction raised). -/
def ckyKeys (fuel : Nat) (chart : ChartKey → List Production) :
    List ChartKey :=
  match ckyChart fuel chart with
  | .ok pruned => pruned.map (fun kv => kv.1)
  | .error _ => []

/-- Whether forest extraction returns normally. -/
def ckyIsOk (fuel : Nat) (chart : ChartKey → List Production) : Bool :=
  match ckyChart fuel chart with
  | .ok _ => true
  | .error _ => false

/-- The error raised by forest extraction, if any. -/
def ckyErr (fuel : Nat) (chart : ChartKey → List Production) : Option PyErr :=
  match ckyChart fuel chart with
  | .ok _ => none
  | .error e => some e

/-- Modelled from the spec (4.3.1, for comparison with the source's
traversal): the reachability pass as the spec words it, where antecedents
are pushed only for the goal key and for closed items reached; unclosed
bridging items are reached but not expanded. -/
def specReachAux (chart : ChartKey → List Production) :
    Nat → List ChartKey → List ChartKey → Option (List ChartKey)
  | 0, _, _ => none
  | _ + 1, [], visited => some visited
  | fuel + 1, k :: stack, visited =>
    if k ∈ visited then specReachAux chart fuel stack visited
    else
      let pushes :=
        if ckyKeep k then ((chart k).flatten.map ChartKey.item).reverse
        else []
      specReachAux chart fuel (pushes ++ stack) (visited ++ [k])

/-- The key set reached by the spec-worded traversal (empty if its fuel
runs out). -/
def specReachList (fuel : Nat) (chart : ChartKey → List Production) :
    List ChartKey :=
  match specReachAux chart fuel [ChartKey.start] [] with
  | some v => v
  | none => []

/-- Declarative reachability in the raw chart: the goal key is reachable,
and every antecedent of every production of a reachable key is
reachable. -/
inductive Reaches (chart : ChartKey → List Production) : ChartKey → Prop
  | start : Reaches chart ChartKey.start
  | step {k : ChartKey} {p : Production} {it : Item} :
      Reaches chart k → p ∈ chart k → it ∈ p →
      Reaches chart (ChartKey.item it)

/-- The names defined at top level of module `parser` in the source.  The
helpers `make_string_filter_cache`, `make_graph_filter_cache` and
`make_synch_filter_cache` are commented out in the source, so they are
absent. -/
def moduleTopLevelDefs : List String :=
  ["Parser", "cky_chart", "output_bolinas", "output_carmel",
   "output_tiburon", "output_cdec", "strings_for_items"]

/-- Translation of `Parser.parse_strings`: the generator body first evaluates
`make_string_filter_cache()`, a name not defined at module level (its
definition is commented out), so the first advance raises `NameError`;
were the name defined, the call `self.parse(string, None, filter_cache)`
would raise `TypeError` because `parse` accepts two arguments besides
`self`. -/
def parseStrings (_g : Grammar) (_strings : List (List String))
    (_fuel : Nat) : Except PyErr (List (List (ChartKey × RealProds))) :=
  if moduleTopLevelDefs.contains "make_string_filter_cache" then
    .error .typeError
  else .error .nameError

/-- Translation of `Parser.parse_graphs`: one `parse(None, graph)` plus `cky_chart` per
input graph, in order. -/
def parseGraphs (g : Grammar) (graphs : List Graph) (fuel : Nat) :
    Except PyErr (List (List (ChartKey × RealProds))) :=
  graphs.mapM
    (fun gr =>
      match parseState g none (some gr) fuel with
      | .error e => .error e
      | .ok st => ckyChart fuel st.chart)

/-! ## Concrete grammars, items and charts used as test inputs -/

/-- A finite chart given by an association list (missing keys are empty,
as with the source's defaultdict). -/
def assocChart (l : List (ChartKey × List Production)) :
    ChartKey → List Production :=
  fun k => (((l.find? (fun kv => kv.1 = k)).map (fun kv => kv.2)).getD [])

/-- Rule `S -> "a"`. -/
def ruleSa : Rule := ⟨0, "S", [RhsElem.word "a"], 1⟩

/-- The grammar with the single terminal rule `S -> "a"`. -/
def gramSa : Grammar := ⟨[ruleSa], "S"⟩

/-- The closed item of `S -> "a"` spanning `[0, 1)`. -/
def itemSa : Item := Item.cfg ⟨ruleSa, 1, some (0, 1)⟩

/-- Rule `S -> A`. -/
def ruleSA : Rule := ⟨0, "S", [RhsElem.nt "A" 0], 1⟩

/-- Rule `A -> "a"`. -/
def ruleAa : Rule := ⟨1, "A", [RhsElem.word "a"], 1⟩

/-- The grammar `S -> A, A -> "a"` (exercises completion and wake-up). -/
def gramSA : Grammar := ⟨[ruleSA, ruleAa], "S"⟩

/-- The axiom item of `S -> A`. -/
def axSA : Item := Item.cfg ⟨ruleSA, 0, none⟩

/-- The closed item of `A -> "a"` spanning `[0, 1)`. -/
def itemA1 : Item := Item.cfg ⟨ruleAa, 1, some (0, 1)⟩

/-- Rule `S -> A B C` (a ternary right-hand side). -/
def rS3 : Rule := ⟨0, "S", [RhsElem.nt "A" 0, RhsElem.nt "B" 0, RhsElem.nt "C" 0], 1⟩

/-- Rule `B -> E F`. -/
def rB2 : Rule := ⟨1, "B", [RhsElem.nt "E" 0, RhsElem.nt "F" 0], 1⟩

def rA : Rule := ⟨2, "A", [RhsElem.word "a"], 1⟩

def rC : Rule := ⟨3, "C", [RhsElem.word "c"], 1⟩

def rE : Rule := ⟨4, "E", [RhsElem.word "e"], 1⟩

def rF : Rule := ⟨5, "F", [RhsElem.word "f"], 1⟩

def iS0 : Item := Item.cfg ⟨rS3, 0, none⟩

def iS1 : Item := Item.cfg ⟨rS3, 1, some (0, 1)⟩

def iS2 : Item := Item.cfg ⟨rS3, 2, some (0, 2)⟩

/-- The closed item of `S -> A B C`. -/
def iS3 : Item := Item.cfg ⟨rS3, 3, some (0, 3)⟩

def iA1 : Item := Item.cfg ⟨rA, 1, some (0, 1)⟩

def iB0 : Item := Item.cfg ⟨rB2, 0, none⟩

def iBMid : Item := Item.cfg ⟨rB2, 1, some (1, 2)⟩

/-- The closed item of `B -> E F`; in `ch4` it occurs only as an
antecedent of the production of the unclosed item `iS2`. -/
def iB1 : Item := Item.cfg ⟨rB2, 2, some (1, 3)⟩

def iE1 : Item := Item.cfg ⟨rE, 1, some (1, 2)⟩

def iF1 : Item := Item.cfg ⟨rF, 1, some (2, 3)⟩

def iC1 : Item := Item.cfg ⟨rC, 1, some (2, 3)⟩

/-- A raw chart in the shape the engine produces for `S -> A B C` with
`B -> E F`: the closed item `iB1` is recorded only inside the production
of the *unclosed* bridging item `iS2`, so a traversal that expands only
closed items never sees it. -/
def ch4 : ChartKey → List Production := assocChart
  [(ChartKey.start, [[iS3]]),
   (ChartKey.item iS3, [[iS2, iC1]]),
   (ChartKey.item iS2, [[iS1, iB1]]),
   (ChartKey.item iS1, [[iS0, iA1]]),
   (ChartKey.item iB1, [[iBMid, iF1]]),
   (ChartKey.item iBMid, [[iB0, iE1]])]

/-- An open item whose outside nonterminal is `(A, 0)`. -/
def l5 : Item := Item.cfg ⟨⟨10, "X", [RhsElem.nt "A" 0], 1⟩, 0, none⟩

/-- A closed filler item (an `A`). -/
def r5 : Item := Item.cfg ⟨rA, 1, some (0, 1)⟩

/-- A pseudo-item with binary productions. -/
def p5 : Item := Item.cfg ⟨⟨11, "X", [RhsElem.nt "A" 0], 1⟩, 1, some (0, 1)⟩

/-- A chart whose binary production group for `p5` has the single shared
first antecedent `l5`. -/
def ch5u : ChartKey → List Production := assocChart
  [(ChartKey.item p5, [[l5, r5]])]

/-- An open item whose outside nonterminal is `(B, 0)`, distinct from
`l5`'s `(A, 0)`. -/
def l5b : Item := Item.cfg ⟨⟨12, "Y", [RhsElem.nt "B" 0], 1⟩, 0, none⟩

/-- A closed filler item (a `C`). -/
def r5b : Item := Item.cfg ⟨rC, 1, some (1, 2)⟩

/-- A chart whose binary production group for `p5` mixes two different
first antecedents with *different* outside symbols. -/
def ch5m : ChartKey → List Production := assocChart
  [(ChartKey.item p5, [[l5, r5], [l5b, r5b]])]

/-- A chart whose production group for `p5` mixes arities 1 and 2. -/
def ch6mixed : ChartKey → List Production := assocChart
  [(ChartKey.item p5, [[l5], [l5b, r5b]])]

/-- A chart whose production group for `p5` has uniform arity 3. -/
def ch6tern : ChartKey → List Production := assocChart
  [(ChartKey.item p5, [[l5, r5, r5b]])]

/-- A rule whose left-hand symbol is the reserved binarization marker. -/
def rP : Rule := ⟨20, "PARTIAL", [RhsElem.nt "X" 0], 1⟩

/-- A closed item of the `'PARTIAL'` marker rule. -/
def iP : Item := Item.cfg ⟨rP, 1, some (0, 1)⟩

/-- A chart in which the goal's sole derivation passes through the
`'PARTIAL'` marker item `iP`, which has exactly one recorded
production. -/
def ch7 : ChartKey → List Production := assocChart
  [(ChartKey.start, [[iP]]), (ChartKey.item iP, [[iS0]])]

/-- Shorthand for the goal test with a call's configuration. -/
def SP (cfgC : PConfig) (it : Item) : Bool :=
  successfulParse cfgC.startSymbol cfgC.string cfgC.graph
    cfgC.stringSize cfgC.graphSize it

/-- The loop invariant of `parse`:
* every production under the goal key is a one-tuple of a visited, closed,
  goal-satisfying item;
* conversely every visited closed goal-satisfying item is recorded under
  the goal key;
* the ghost trace of `can_complete` evaluations has no duplicates and is
  contained in the `attempted` memo;
* no recorded production is the empty tuple. -/
structure EngineInv (cfgC : PConfig) (st : PState) : Prop where
  startProds : ∀ p ∈ st.chart ChartKey.start,
    ∃ it, p = [it] ∧ it ∈ st.visited ∧ it.closed = true ∧ SP cfgC it = true
  goalRec : ∀ it ∈ st.visited, it.closed = true → SP cfgC it = true →
    [it] ∈ st.chart ChartKey.start
  traceNodup : st.trace.Nodup
  traceSub : ∀ pr ∈ st.trace, pr ∈ st.attempted
  prodsNe : ∀ k p, p ∈ st.chart k → p ≠ []

/-- The invariant with the converse goal-recording obligation waived for
one item (the item just popped, before its branch has run). -/
structure EngineInvAt (cfgC : PConfig) (st : PState) (ex : Item) : Prop where
  startProds : ∀ p ∈ st.chart ChartKey.start,
    ∃ it, p = [it] ∧ it ∈ st.visited ∧ it.closed = true ∧ SP cfgC it = true
  goalRec : ∀ it ∈ st.visited, it ≠ ex → it.closed = true → SP cfgC it = true →
    [it] ∈ st.chart ChartKey.start
  traceNodup : st.trace.Nodup
  traceSub : ∀ pr ∈ st.trace, pr ∈ st.attempted
  prodsNe : ∀ k p, p ∈ st.chart k → p ≠ []

/-- The visited set is closed under taking antecedents of recorded
productions. -/
def ChartClosed (chart : ChartKey → List Production) (res : List ChartKey) :
    Prop :=
  ∀ k ∈ res, ∀ p ∈ chart k, ∀ it ∈ p, ChartKey.item it ∈ res

/-- Rule `S -> e` for a single graph edge label `e`. -/
def rSe : Rule := ⟨0, "S", [RhsElem.edge "e"], 1⟩

/-- A graph grammar matching one edge. -/
def gramSe : Grammar := ⟨[rSe], "S"⟩

/-- A single labeled input edge. -/
def eOne : Edge := ⟨"n0", "e", ["n1"]⟩

/-- A one-edge input graph. -/
def grOne : Graph := ⟨[eOne]⟩

/-- The pruned forest of parsing `grOne` with `gramSe`. -/
def prunedGrOne : List (ChartKey × RealProds) :=
  [(ChartKey.start, [(RPKey.start, [Item.herg ⟨rSe, 1, [eOne]⟩])])]

/-! ## Lemmas about the Python-set and chart primitives -/

theorem mem_pyAdd {α : Type} [DecidableEq α] {l : List α} {x y : α} :
    x ∈ pyAdd l y ↔ x ∈ l ∨ x = y := by
  unfold pyAdd
  split
  · next h => exact ⟨Or.inl, fun h' => h'.elim id (fun e => e ▸ h)⟩
  · simp

theorem self_mem_pyAdd {α : Type} [DecidableEq α] (l : List α) (x : α) :
    x ∈ pyAdd l x := mem_pyAdd.mpr (Or.inr rfl)

theorem mem_pyAdd_of_mem {α : Type} [DecidableEq α] {l : List α} {x : α}
    (y : α) (h : x ∈ l) : x ∈ pyAdd l y := mem_pyAdd.mpr (Or.inl h)

theorem mem_chartAdd {ch : ChartKey → List Production} {k k' : ChartKey}
    {q p : Production} :
    p ∈ chartAdd ch k q k' ↔ p ∈ ch k' ∨ (k' = k ∧ p = q) := by
  unfold chartAdd
  split
  · next h => subst h; rw [mem_pyAdd]; tauto
  · next h => tauto

theorem chartAdd_start {ch : ChartKey → List Production} {it : Item}
    {q : Production} :
    chartAdd ch (ChartKey.item it) q ChartKey.start = ch ChartKey.start := by
  unfold chartAdd
  simp

theorem foldl_hom_eq {σ α β : Type} (g : σ → β) (f : σ → α → σ)
    (h : ∀ s x, g (f s x) = g s) :
    ∀ (l : List α) (s : σ), g (l.foldl f s) = g s := by
  intro l
  induction l with
  | nil => intro s; rfl
  | cons x xs ih => intro s; rw [List.foldl_cons, ih, h]

theorem foldl_preserve {σ α : Type} {P : σ → Prop} {f : σ → α → σ}
    (h : ∀ s x, P s → P (f s x)) :
    ∀ (l : List α) (s : σ), P s → P (l.foldl f s) := by
  intro l
  induction l with
  | nil => intro s hs; exact hs
  | cons x xs ih => intro s hs; rw [List.foldl_cons]; exact ih _ (h s x hs)

/-! ## The engine invariant -/

theorem EngineInv.congrFields {c : PConfig} {s s' : PState}
    (h : EngineInv c s) (h1 : s'.chart = s.chart) (h2 : s'.visited = s.visited)
    (h3 : s'.trace = s.trace) (h4 : s'.attempted = s.attempted) :
    EngineInv c s' :=
  ⟨by rw [h1, h2]; exact h.startProds,
   by rw [h1, h2]; exact h.goalRec,
   by rw [h3]; exact h.traceNodup,
   by rw [h3, h4]; exact h.traceSub,
   by rw [h1]; exact h.prodsNe⟩

theorem invAt_of_pop {c : PConfig} {st : PState} (item : Item)
    (rest : List Item) (h : EngineInv c st) :
    EngineInvAt c (popState st item rest) item := by
  refine ⟨?_, ?_, h.traceNodup, h.traceSub, h.prodsNe⟩
  · intro p hp
    obtain ⟨it, hpe, hvis, hcl, hsp⟩ := h.startProds p hp
    exact ⟨it, hpe, mem_pyAdd_of_mem _ hvis, hcl, hsp⟩
  · intro it hvis hne hcl hsp
    rcases mem_pyAdd.mp hvis with hold | heq
    · exact h.goalRec it hold hcl hsp
    · exact absurd heq hne

theorem inv_of_invAt_open {c : PConfig} {st : PState} {ex : Item}
    (h : EngineInvAt c st ex) (hop : ex.closed = false) : EngineInv c st := by
  refine ⟨h.startProds, ?_, h.traceNodup, h.traceSub, h.prodsNe⟩
  intro it hvis hcl hsp
  by_cases hne : it = ex
  · subst hne; rw [hcl] at hop; exact absurd hop (by simp)
  · exact h.goalRec it hvis hne hcl hsp

/-! ## Preservation of the invariant by each engine step -/

theorem wakeF_inv {c : PConfig} {s : PState} (h : EngineInv c s) (r : Item) :
    EngineInv c (wakeF s r) := by
  unfold wakeF
  split
  · exact h
  · exact h.congrFields rfl rfl rfl rfl

theorem inv_set_att_trace {c : PConfig} {s : PState} (h : EngineInv c s)
    {pr : Item × Item} (hna : pr ∉ s.attempted) :
    EngineInv c { s with attempted := pyAdd s.attempted pr,
                         trace := s.trace ++ [pr] } := by
  have hnt : pr ∉ s.trace := fun ht => hna (h.traceSub _ ht)
  refine ⟨?_, ?_, ?_, ?_, ?_⟩ <;> dsimp only
  · exact h.startProds
  · exact h.goalRec
  · refine List.Nodup.append h.traceNodup (List.nodup_singleton _) ?_
    intro a ha hb
    simp only [List.mem_singleton] at hb
    subst hb
    exact hnt ha
  · intro x hx
    rcases List.mem_append.mp hx with h1 | h2
    · exact mem_pyAdd_of_mem _ (h.traceSub _ h1)
    · simp only [List.mem_singleton] at h2
      subst h2
      exact self_mem_pyAdd _ _
  · exact h.prodsNe

theorem inv_chartAdd_item {c : PConfig} {s : PState} (h : EngineInv c s)
    (n : Item) {q : Production} (hq : q ≠ []) :
    EngineInv c { s with chart := chartAdd s.chart (ChartKey.item n) q } := by
  refine ⟨?_, ?_, ?_, ?_, ?_⟩ <;> dsimp only
  · intro p hp
    rw [chartAdd_start] at hp
    exact h.startProds p hp
  · intro it hv hc hs
    rw [chartAdd_start]
    exact h.goalRec it hv hc hs
  · exact h.traceNodup
  · exact h.traceSub
  · intro k p hp
    rcases mem_chartAdd.mp hp with h1 | ⟨_, h2⟩
    · exact h.prodsNe k p h1
    · subst h2
      exact hq

theorem completeF_inv {c : PConfig} (item : Item) {s : PState}
    (h : EngineInv c s) (oitem : Item) : EngineInv c (completeF item s oitem) := by
  unfold completeF
  dsimp only
  split
  · exact h
  · next hmem =>
    split
    · exact inv_set_att_trace h hmem
    · split
      · exact inv_chartAdd_item (inv_set_att_trace h hmem) _ (by simp)
      · exact (inv_chartAdd_item (inv_set_att_trace h hmem) _
          (by simp)).congrFields rfl rfl rfl rfl

theorem stepComplete_inv {c : PConfig} {st : PState} (item : Item)
    (h : EngineInv c st) : EngineInv c (stepComplete st item) := by
  unfold stepComplete
  dsimp only
  exact @foldl_preserve PState Item (EngineInv c) (completeF item)
    (fun s x hs => completeF_inv item hs x) _ _
    (h.congrFields rfl rfl rfl rfl)

theorem shiftRecF_inv {c : PConfig} (item : Item) {s : PState}
    (h : EngineInv c s) (nitem : Item) : EngineInv c (shiftRecF item s nitem) := by
  unfold shiftRecF
  dsimp only
  split
  · exact inv_chartAdd_item h _ (by simp)
  · exact (inv_chartAdd_item h _ (by simp)).congrFields rfl rfl rfl rfl

theorem recordShifts_inv {c : PConfig} {st : PState} (item : Item)
    (newItems : List Item) (h : EngineInv c st) :
    EngineInv c (recordShifts st item newItems) :=
  @foldl_preserve PState Item (EngineInv c) (shiftRecF item)
    (fun s x hs => shiftRecF_inv item hs x) _ _ h

theorem stepShift_inv {c : PConfig} {st st' : PState} {item : Item}
    (h : EngineInv c st) (hok : stepShift c st item = .ok st') :
    EngineInv c st' := by
  unfold stepShift at hok
  split at hok
  · split at hok
    · injection hok with hok
      subst hok
      exact recordShifts_inv _ _ h
    · split at hok
      · cases hok
      · injection hok with hok
        subst hok
        exact recordShifts_inv _ _ h
  · split at hok
    · injection hok with hok
      subst hok
      exact recordShifts_inv _ _ h
    · split at hok
      · cases hok
      · injection hok with hok
        subst hok
        exact recordShifts_inv _ _ h

theorem inv_goal_record {c : PConfig} {st : PState} {item : Item}
    (hAt : EngineInvAt c st item) (hvis : item ∈ st.visited)
    (hcl : item.closed = true) (hsp : SP c item = true) :
    EngineInv c { st with chart := chartAdd st.chart ChartKey.start [item],
                          success := true } := by
  refine ⟨?_, ?_, ?_, ?_, ?_⟩ <;> dsimp only
  · intro p hp
    rcases mem_chartAdd.mp hp with h1 | ⟨_, h2⟩
    · exact hAt.startProds p h1
    · exact ⟨item, h2, hvis, hcl, hsp⟩
  · intro it hv hc hs
    by_cases hne : it = item
    · subst hne
      exact mem_chartAdd.mpr (Or.inr ⟨rfl, rfl⟩)
    · exact mem_chartAdd.mpr (Or.inl (hAt.goalRec it hv hne hc hs))
  · exact hAt.traceNodup
  · exact hAt.traceSub
  · intro k p hp
    rcases mem_chartAdd.mp hp with h1 | ⟨_, h2⟩
    · exact hAt.prodsNe k p h1
    · subst h2
      simp

theorem invAt_to_inv_noSP {c : PConfig} {st : PState} {item : Item}
    (hAt : EngineInvAt c st item) (hsp : SP c item = false) :
    EngineInv c st := by
  refine ⟨hAt.startProds, ?_, hAt.traceNodup, hAt.traceSub, hAt.prodsNe⟩
  intro it hv hc hs
  by_cases hne : it = item
  · subst hne
    rw [hs] at hsp
    cases hsp
  · exact hAt.goalRec it hv hne hc hs

theorem stepClosed_inv {c : PConfig} {st : PState} {item : Item}
    (hAt : EngineInvAt c st item) (hvis : item ∈ st.visited)
    (hcl : item.closed = true) : EngineInv c (stepClosed c st item) := by
  unfold stepClosed
  dsimp only
  split
  · next hsp =>
    exact @foldl_preserve PState Item (EngineInv c) wakeF
      (fun s x hs => wakeF_inv hs x) _ _
      ((inv_goal_record hAt hvis hcl hsp).congrFields rfl rfl rfl rfl)
  · next hsp =>
    have hspf : SP c item = false := by
      cases hb : SP c item
      · rfl
      · exact absurd hb hsp
    exact @foldl_preserve PState Item (EngineInv c) wakeF
      (fun s x hs => wakeF_inv hs x) _ _
      ((invAt_to_inv_noSP hAt hspf).congrFields rfl rfl rfl rfl)

theorem processItem_inv {c : PConfig} {st st' : PState} {item : Item}
    (hAt : EngineInvAt c st item) (hvis : item ∈ st.visited)
    (hok : processItem c st item = .ok st') : EngineInv c st' := by
  unfold processItem at hok
  split at hok
  · next hcl =>
    injection hok with hok
    subst hok
    exact stepClosed_inv hAt hvis hcl
  · next hcl =>
    have hop : item.closed = false := by
      cases hc : item.closed
      · rfl
      · exact absurd hc hcl
    have h := inv_of_invAt_open hAt hop
    split at hok
    · injection hok with hok
      subst hok
      exact stepComplete_inv item h
    · exact stepShift_inv h hok

theorem parseLoop_inv {c : PConfig} :
    ∀ {fuel : Nat} {st st' : PState}, EngineInv c st →
      parseLoop c fuel st = .ok st' → EngineInv c st' := by
  intro fuel
  induction fuel with
  | zero =>
    intro st st' h hok
    unfold parseLoop at hok
    injection hok with hok
    subst hok
    exact h
  | succ n ih =>
    intro st st' h hok
    unfold parseLoop at hok
    split at hok
    · injection hok with hok
      subst hok
      exact h
    · next item rest heq =>
      split at hok
      · cases hok
      · next st1 hst1 =>
        exact ih (processItem_inv (invAt_of_pop item rest h)
          (self_mem_pyAdd _ _) hst1) hok

theorem emptyState_inv (c : PConfig) : EngineInv c emptyState := by
  refine ⟨?_, ?_, ?_, ?_, ?_⟩ <;> simp [emptyState]

theorem seedF_chart (s : Option (List String)) (gr : Option Graph)
    (st : PState) (r : Rule) : (seedF s gr st r).chart = st.chart := by
  unfold seedF
  dsimp only
  split <;> rfl

theorem seedF_visited (s : Option (List String)) (gr : Option Graph)
    (st : PState) (r : Rule) : (seedF s gr st r).visited = st.visited := by
  unfold seedF
  dsimp only
  split <;> rfl

theorem seedF_trace (s : Option (List String)) (gr : Option Graph)
    (st : PState) (r : Rule) : (seedF s gr st r).trace = st.trace := by
  unfold seedF
  dsimp only
  split <;> rfl

theorem seedF_attempted (s : Option (List String)) (gr : Option Graph)
    (st : PState) (r : Rule) : (seedF s gr st r).attempted = st.attempted := by
  unfold seedF
  dsimp only
  split <;> rfl

theorem initState_inv (c : PConfig) (g : Grammar) (s : Option (List String))
    (gr : Option Graph) : EngineInv c (initState g s gr) := by
  unfold initState
  exact (emptyState_inv c).congrFields
    (foldl_hom_eq PState.chart _ (seedF_chart s gr) _ _)
    (foldl_hom_eq PState.visited _ (seedF_visited s gr) _ _)
    (foldl_hom_eq PState.trace _ (seedF_trace s gr) _ _)
    (foldl_hom_eq PState.attempted _ (seedF_attempted s gr) _ _)

theorem parseState_inv {g : Grammar} {s : Option (List String)}
    {gr : Option Graph} {fuel : Nat} {st : PState}
    (h : parseState g s gr fuel = .ok st) :
    EngineInv (mkConfig g s gr) st :=
  parseLoop_inv (initState_inv _ g s gr) h

/-! ## Correctness of the reachability pass -/

theorem reachAux_subset {chart : ChartKey → List Production} :
    ∀ {fuel : Nat} {stack visited res : List ChartKey},
      reachAux chart fuel stack visited = some res →
      (∀ k ∈ visited, k ∈ res) ∧ (∀ k ∈ stack, k ∈ res) := by
  intro fuel
  induction fuel with
  | zero =>
    intro stack visited res h
    simp [reachAux] at h
  | succ n ih =>
    intro stack visited res h
    cases stack with
    | nil =>
      simp only [reachAux] at h
      injection h with h
      subst h
      exact ⟨fun k hk => hk, fun k hk => absurd hk (List.not_mem_nil k)⟩
    | cons k rest =>
      simp only [reachAux] at h
      split at h
      · next hkv =>
        obtain ⟨hv, hs⟩ := ih h
        refine ⟨hv, ?_⟩
        intro k' hk'
        rcases List.mem_cons.mp hk' with rfl | hk'
        · exact hv _ hkv
        · exact hs _ hk'
      · obtain ⟨hv, hs⟩ := ih h
        have hk : k ∈ res :=
          hv _ (List.mem_append.mpr (Or.inr (List.mem_singleton.mpr rfl)))
        refine ⟨fun k' h' => hv _ (List.mem_append.mpr (Or.inl h')), ?_⟩
        intro k' hk'
        rcases List.mem_cons.mp hk' with rfl | hk'
        · exact hk
        · exact hs _ (List.mem_append.mpr (Or.inr hk'))

theorem mem_pushes {chart : ChartKey → List Production} {k k' : ChartKey}
    (h : k' ∈ ((chart k).flatten.map ChartKey.item).reverse) :
    ∃ p ∈ chart k, ∃ it ∈ p, k' = ChartKey.item it := by
  rw [List.mem_reverse, List.mem_map] at h
  obtain ⟨it, hit, rfl⟩ := h
  rw [List.mem_flatten] at hit
  obtain ⟨p, hp, hitp⟩ := hit
  exact ⟨p, hp, it, hitp, rfl⟩

theorem reachAux_sound {chart : ChartKey → List Production} :
    ∀ {fuel : Nat} {stack visited res : List ChartKey},
      reachAux chart fuel stack visited = some res →
      (∀ k ∈ stack, Reaches chart k) → (∀ k ∈ visited, Reaches chart k) →
      ∀ k ∈ res, Reaches chart k := by
  intro fuel
  induction fuel with
  | zero =>
    intro stack visited res h
    simp [reachAux] at h
  | succ n ih =>
    intro stack visited res h hstack hvis
    cases stack with
    | nil =>
      simp only [reachAux] at h
      injection h with h
      subst h
      exact hvis
    | cons k rest =>
      simp only [reachAux] at h
      split at h
      · exact ih h (fun k' hk' => hstack k' (List.mem_cons_of_mem _ hk')) hvis
      · refine ih h ?_ ?_
        · intro k' hk'
          rcases List.mem_append.mp hk' with hpush | hrest
          · obtain ⟨p, hp, it, hitp, rfl⟩ := mem_pushes hpush
            exact Reaches.step (hstack k (List.mem_cons_self k rest)) hp hitp
          · exact hstack k' (List.mem_cons_of_mem _ hrest)
        · intro k' hk'
          rcases List.mem_append.mp hk' with hv | hk
          · exact hvis k' hv
          · rw [List.mem_singleton] at hk
            rw [hk]
            exact hstack k (List.mem_cons_self k rest)

theorem reachAux_closed {chart : ChartKey → List Production} :
    ∀ {fuel : Nat} {stack visited res : List ChartKey},
      reachAux chart fuel stack visited = some res →
      (∀ k ∈ visited, ∀ p ∈ chart k, ∀ it ∈ p,
        ChartKey.item it ∈ visited ∨ ChartKey.item it ∈ stack) →
      ChartClosed chart res := by
  intro fuel
  induction fuel with
  | zero =>
    intro stack visited res h
    simp [reachAux] at h
  | succ n ih =>
    intro stack visited res h hinv
    cases stack with
    | nil =>
      simp only [reachAux] at h
      injection h with h
      subst h
      intro k hk p hp it hit
      rcases hinv k hk p hp it hit with hv | hs
      · exact hv
      · exact absurd hs (List.not_mem_nil _)
    | cons k rest =>
      simp only [reachAux] at h
      split at h
      · next hkv =>
        refine ih h ?_
        intro k0 hk0 p hp it hit
        rcases hinv k0 hk0 p hp it hit with hv | hs
        · exact Or.inl hv
        · rcases List.mem_cons.mp hs with heq | hrest
          · exact Or.inl (heq ▸ hkv)
          · exact Or.inr hrest
      · refine ih h ?_
        intro k0 hk0 p hp it hit
        rcases List.mem_append.mp hk0 with hold | hnew
        · rcases hinv k0 hold p hp it hit with hv | hs
          · exact Or.inl (List.mem_append.mpr (Or.inl hv))
          · rcases List.mem_cons.mp hs with heq | hrest
            · exact Or.inl (List.mem_append.mpr (Or.inr (by simp [heq])))
            · exact Or.inr (List.mem_append.mpr (Or.inr hrest))
        · rw [List.mem_singleton] at hnew
          subst hnew
          refine Or.inr (List.mem_append.mpr (Or.inl ?_))
          rw [List.mem_reverse, List.mem_map]
          exact ⟨it, List.mem_flatten.mpr ⟨p, hp, hit⟩, rfl⟩

theorem reachAux_complete {chart : ChartKey → List Production}
    {fuel : Nat} {res : List ChartKey}
    (h : reachAux chart fuel [ChartKey.start] [] = some res) :
    ∀ k, Reaches chart k → k ∈ res := by
  have hstart : ChartKey.start ∈ res := (reachAux_subset h).2 _ (by simp)
  have hcl : ChartClosed chart res := reachAux_closed h (by simp)
  intro k hk
  induction hk with
  | start => exact hstart
  | step hr hp hit ih => exact hcl _ ih _ hp _ hit

theorem reach_iff {chart : ChartKey → List Production} {fuel : Nat}
    {res : List ChartKey}
    (h : reachAux chart fuel [ChartKey.start] [] = some res) (k : ChartKey) :
    k ∈ res ↔ Reaches chart k := by
  constructor
  · refine reachAux_sound h ?_ ?_ k
    · intro k' hk'
      rw [List.mem_singleton] at hk'
      subst hk'
      exact Reaches.start
    · intro k' hk'
      exact absurd hk' (List.not_mem_nil _)
  · exact reachAux_complete h k

/-! ## The pruned-chart builder -/

theorem build_ok_pointwise {chart : ChartKey → List Production} {fuel : Nat} :
    ∀ {l : List ChartKey} {acc res : List (ChartKey × RealProds)},
      List.foldlM (buildF chart fuel) acc l = .ok res →
      ∀ k ∈ l, ckyKeep k = true → ∃ rp, walkAux chart fuel k [] = .ok rp := by
  intro l
  induction l with
  | nil =>
    intro acc res _ k hk
    exact absurd hk (List.not_mem_nil k)
  | cons x xs ih =>
    intro acc res h k hk hkeep
    rw [List.foldlM_cons] at h
    cases hb : buildF chart fuel acc x with
    | error e =>
      rw [hb] at h
      exact Except.noConfusion h
    | ok acc1 =>
      rw [hb] at h
      rcases List.mem_cons.mp hk with rfl | hk'
      · unfold buildF at hb
        rw [hkeep] at hb
        simp only [Bool.not_true] at hb
        rw [if_neg (by simp)] at hb
        cases hw : walkAux chart fuel k [] with
        | error e =>
          rw [hw] at hb
          exact Except.noConfusion hb
        | ok rp => exact ⟨rp, rfl⟩
      · exact ih h k hk' hkeep

theorem buildF_cases {chart : ChartKey → List Production} {fuel : Nat}
    {acc acc1 : List (ChartKey × RealProds)} {x : ChartKey}
    (hb : buildF chart fuel acc x = .ok acc1) :
    (acc1 = acc ∧ (ckyKeep x = false ∨
      ¬ ∃ rp, walkAux chart fuel x [] = .ok rp ∧ rp ≠ [])) ∨
    (ckyKeep x = true ∧
      ∃ rp, walkAux chart fuel x [] = .ok rp ∧ rp ≠ [] ∧
        acc1 = acc ++ [(x, rp)]) := by
  unfold buildF at hb
  rcases Bool.eq_false_or_eq_true (ckyKeep x) with hk | hk
  · rw [hk] at hb
    simp only [Bool.not_true] at hb
    rw [if_neg (by simp)] at hb
    revert hb
    cases hw : walkAux chart fuel x [] with
    | error e =>
      intro hb
      exact Except.noConfusion hb
    | ok rp0 =>
      intro hb
      dsimp only at hb
      by_cases hrp : rp0 = []
      · rw [if_pos hrp] at hb
        injection hb with hb
        refine Or.inl ⟨hb.symm, Or.inr ?_⟩
        rintro ⟨rp, he, hne⟩
        injection he with he
        exact hne (he ▸ hrp)
      · rw [if_neg hrp] at hb
        injection hb with hb
        exact Or.inr ⟨hk, rp0, rfl, hrp, hb.symm⟩
  · rw [hk] at hb
    simp only [Bool.not_false, if_pos] at hb
    injection hb with hb
    exact Or.inl ⟨hb.symm, Or.inl hk⟩

theorem build_keys {chart : ChartKey → List Production} {fuel : Nat} :
    ∀ {l : List ChartKey} {acc res : List (ChartKey × RealProds)},
      List.foldlM (buildF chart fuel) acc l = .ok res →
      ∀ k, k ∈ res.map Prod.fst ↔
        k ∈ acc.map Prod.fst ∨
          (k ∈ l ∧ ckyKeep k = true ∧
            ∃ rp, walkAux chart fuel k [] = .ok rp ∧ rp ≠ []) := by
  intro l
  induction l with
  | nil =>
    intro acc res h k
    simp only [List.foldlM_nil] at h
    injection h with h
    subst h
    simp
  | cons x xs ih =>
    intro acc res h k
    rw [List.foldlM_cons] at h
    cases hb : buildF chart fuel acc x with
    | error e =>
      rw [hb] at h
      exact Except.noConfusion h
    | ok acc1 =>
      rw [hb] at h
      have hrec := ih h k
      rcases buildF_cases hb with ⟨ha1, hside⟩ | ⟨hkeep, rp, hw, hne, ha1⟩
      · subst ha1
        rw [hrec]
        constructor
        · rintro (ha | ⟨hmem, hk2, hw⟩)
          · exact Or.inl ha
          · exact Or.inr ⟨List.mem_cons_of_mem _ hmem, hk2, hw⟩
        · rintro (ha | ⟨hmem, hk2, hw⟩)
          · exact Or.inl ha
          · rcases List.mem_cons.mp hmem with heq | hmem2
            · rcases hside with hkf | hnw
              · rw [heq, hkf] at hk2
                simp at hk2
              · rw [heq] at hw
                exact absurd hw hnw
            · exact Or.inr ⟨hmem2, hk2, hw⟩
      · subst ha1
        rw [hrec]
        simp only [List.map_append, List.map_cons, List.map_nil,
          List.mem_append, List.mem_singleton]
        constructor
        · rintro ((ha | heq) | ⟨hmem, hk2, hw2⟩)
          · exact Or.inl ha
          · refine Or.inr ⟨?_, ?_, ?_⟩
            · rw [heq]
              exact List.mem_cons_self _ _
            · rw [heq]
              exact hkeep
            · rw [heq]
              exact ⟨rp, hw, hne⟩
          · exact Or.inr ⟨List.mem_cons_of_mem _ hmem, hk2, hw2⟩
        · rintro (ha | ⟨hmem, hk2, hw2⟩)
          · exact Or.inl (Or.inl ha)
          · rcases List.mem_cons.mp hmem with heq | hmem2
            · exact Or.inl (Or.inr heq)
            · exact Or.inr ⟨hmem2, hk2, hw2⟩

/-! ## Lemmas about the regrouping walk -/

theorem foldl_pyAdd_const {α : Type} [DecidableEq α] (a : α) :
    ∀ l : List α, (∀ x ∈ l, x = a) → List.foldl pyAdd [a] l = [a] := by
  intro l
  induction l with
  | nil => intro _; rfl
  | cons x xs ih =>
    intro h
    rw [List.foldl_cons]
    have hx : x = a := h x (List.mem_cons_self x xs)
    subst hx
    rw [show pyAdd [x] x = [x] from by simp [pyAdd]]
    exact ih (fun y hy => h y (List.mem_cons_of_mem x hy))

theorem pyDedup_const {α : Type} [DecidableEq α] {l : List α} {a : α}
    (hne : l ≠ []) (h : ∀ x ∈ l, x = a) : pyDedup l = [a] := by
  cases l with
  | nil => exact absurd rfl hne
  | cons x xs =>
    have hx : x = a := h x (List.mem_cons_self x xs)
    subst hx
    unfold pyDedup
    rw [List.foldl_cons]
    rw [show pyAdd [] x = [x] from by simp [pyAdd]]
    exact foldl_pyAdd_const x xs (fun y hy => h y (List.mem_cons_of_mem x hy))

theorem map_ne_nil_of_ne_nil {α β : Type} {l : List α} (f : α → β)
    (h : l ≠ []) : l.map f ≠ [] := by
  intro hc
  exact h (List.map_eq_nil.mp hc)

/-- Claim C5 (amended): when the backward walk reaches a pseudo-item whose
binary productions all share the same first antecedent — the situation the
silenced `assert len(lefts) == 1` intends — they are grouped into a single
result entry keyed by that antecedent's outside (symbol, slot-index) pair,
whose value lists the second antecedent of every production as the
alternative fillers for that slot, and the walk continues from the shared
first antecedent.  (When the first antecedents differ, the source still
emits one entry keyed by the first listed production's first antecedent
and collects the second antecedents of *all* productions under it — see
the counterexample.) -/
theorem claim5_grouping_amended {chart : ChartKey → List Production}
    {pitem l2 : Item} (fuel : Nat) (acc : RealProds)
    (hne : chart (ChartKey.item pitem) ≠ [])
    (hsym : pitem.rule.symbol ≠ "PARTIAL")
    (huni : ∀ p ∈ chart (ChartKey.item pitem), ∃ r, p = [l2, r]) :
    walkAux chart (fuel + 1) (ChartKey.item pitem) acc =
      walkAux chart fuel (ChartKey.item l2)
        (insertRP acc (RPKey.sym l2.outside_symbol l2.outside_nt_index)
          ((chart (ChartKey.item pitem)).map (fun p => p.getD 1 dItem))) := by
  have hlen : ∀ x ∈ (chart (ChartKey.item pitem)).map (fun p => p.length),
      x = 2 := by
    intro x hx
    rw [List.mem_map] at hx
    obtain ⟨p, hp, rfl⟩ := hx
    obtain ⟨r, rfl⟩ := huni p hp
    rfl
  have hheads : ∀ x ∈ (chart (ChartKey.item pitem)).map (fun p => p.headD dItem),
      x = l2 := by
    intro x hx
    rw [List.mem_map] at hx
    obtain ⟨p, hp, rfl⟩ := hx
    obtain ⟨r, rfl⟩ := huni p hp
    rfl
  have hld : pyDedup ((chart (ChartKey.item pitem)).map (fun p => p.length)) =
      [2] := pyDedup_const (map_ne_nil_of_ne_nil _ hne) hlen
  have hhd : pyDedup ((chart (ChartKey.item pitem)).map (fun p => p.headD dItem)) =
      [l2] := pyDedup_const (map_ne_nil_of_ne_nil _ hne) hheads
  have hany : ((chart (ChartKey.item pitem)).any (fun p => p = [])) = false := by
    rw [List.any_eq_false]
    intro p hp
    obtain ⟨r, rfl⟩ := huni p hp
    simp
  have hfirstL : ((chart (ChartKey.item pitem)).headD []).headD dItem = l2 := by
    cases hc : chart (ChartKey.item pitem) with
    | nil => exact absurd hc hne
    | cons p0 ps =>
      obtain ⟨r0, hp0⟩ := huni p0 (by rw [hc]; exact List.mem_cons_self _ _)
      rw [hp0]
      rfl
  rw [walkAux]
  dsimp only
  rw [if_neg hne]
  rw [if_neg (by simp : ¬(ChartKey.item pitem = ChartKey.start))]
  rw [if_neg (show ¬(keySymbol (ChartKey.item pitem) = "PARTIAL") from hsym)]
  rw [if_neg (by simp [hany] : ¬(((chart (ChartKey.item pitem)).any
    (fun p => p = [])) = true))]
  rw [hld, hhd, hfirstL]
  rw [if_neg (by simp : ¬(([2] : List Nat).length ≠ 1))]
  rw [if_neg (by simp : ¬(([2] : List Nat).headD 0 = 1))]
  rw [if_neg (by simp : ¬(([2] : List Nat).headD 0 ≠ 2))]
  rfl

theorem walkAux_arity_abort {chart : ChartKey → List Production}
    {pitem : Item} (fuel : Nat) (acc : RealProds)
    (hne : chart (ChartKey.item pitem) ≠ [])
    (hsym : pitem.rule.symbol ≠ "PARTIAL")
    (hnn : ∀ p ∈ chart (ChartKey.item pitem), p ≠ [])
    (h1 : pyDedup ((chart (ChartKey.item pitem)).map (fun p => p.length)) ≠ [1])
    (h2 : pyDedup ((chart (ChartKey.item pitem)).map (fun p => p.length)) ≠ [2]) :
    walkAux chart (fuel + 1) (ChartKey.item pitem) acc =
      .error .assertionError := by
  have hany : ((chart (ChartKey.item pitem)).any (fun p => p = [])) = false := by
    rw [List.any_eq_false]
    intro p hp
    simpa using hnn p hp
  rw [walkAux]
  dsimp only
  rw [if_neg hne]
  rw [if_neg (by simp : ¬(ChartKey.item pitem = ChartKey.start))]
  rw [if_neg (show ¬(keySymbol (ChartKey.item pitem) = "PARTIAL") from hsym)]
  rw [if_neg (by simp [hany] : ¬(((chart (ChartKey.item pitem)).any
    (fun p => p = [])) = true))]
  by_cases hl1 :
      (pyDedup ((chart (ChartKey.item pitem)).map (fun p => p.length))).length = 1
  · obtain ⟨d, hd⟩ := List.length_eq_one.mp hl1
    rw [if_neg (by simp [hl1])]
    rw [hd]
    have hd1 : d ≠ 1 := by
      intro hc
      exact h1 (by rw [hd, hc])
    have hd2 : d ≠ 2 := by
      intro hc
      exact h2 (by rw [hd, hc])
    rw [if_neg (by simpa using hd1)]
    rw [if_pos (by simpa using hd2)]
  · rw [if_pos hl1]

/-! ## Extraction of an empty forest from a goalless chart -/

theorem reachAux_empty_goal {chart : ChartKey → List Production}
    (fuel : Nat) (hempty : chart ChartKey.start = []) :
    reachAux chart (fuel + 2) [ChartKey.start] [] = some [ChartKey.start] := by
  simp only [reachAux]
  rw [if_neg (List.not_mem_nil _)]
  rw [hempty]
  simp [reachAux]

theorem ckyChart_empty_goal {chart : ChartKey → List Production}
    (fuel : Nat) (hempty : chart ChartKey.start = []) :
    ckyChart (fuel + 2) chart = .ok [] := by
  unfold ckyChart
  rw [reachAux_empty_goal fuel hempty]
  show List.foldlM (buildF chart (fuel + 2)) [] [ChartKey.start] = .ok []
  rw [List.foldlM_cons]
  have hb : buildF chart (fuel + 2) [] ChartKey.start = .ok [] := by
    unfold buildF
    rw [if_neg (by simp [ckyKeep])]
    have hw : walkAux chart (fuel + 2) ChartKey.start [] = .ok [] := by
      rw [walkAux]
      dsimp only
      rw [if_pos hempty]
    rw [hw]
    simp
  rw [hb]
  simp

/-! ## The engine raises no exception when the mode matches the input -/

theorem outside_some_of_open {item : Item} (hcl : item.closed = false) :
    ∃ e, item.outside = some e := by
  cases item with
  | cfg c =>
    simp only [Item.closed, CfgItem.isClosed, decide_eq_false_iff_not,
      not_le] at hcl
    exact ⟨c.rule.rhs[c.dot], by
      simp [Item.outside, CfgItem.outside, List.getElem?_eq_getElem hcl]⟩
  | herg h =>
    simp only [Item.closed, HergItem.isClosed, decide_eq_false_iff_not,
      not_le] at hcl
    exact ⟨h.rule.rhs[h.dot], by
      simp [Item.outside, HergItem.outside, List.getElem?_eq_getElem hcl]⟩
  | sync s =>
    simp only [Item.closed, SyncItem.isClosed, decide_eq_false_iff_not,
      not_le] at hcl
    exact ⟨s.rule.rhs[s.dot], by
      simp [Item.outside, SyncItem.outside, List.getElem?_eq_getElem hcl]⟩

theorem outside_edge_of_shift {item : Item} (hcl : item.closed = false)
    (hnt : item.outside_is_nonterminal = false)
    (hw : item.outside_word_is_nonterminal = true) :
    item.outside_edge_is_nonterminal = false := by
  obtain ⟨e, he⟩ := outside_some_of_open hcl
  cases e with
  | word w =>
    rw [Item.outside_word_is_nonterminal, he] at hw
    cases hw
  | edge l =>
    rw [Item.outside_edge_is_nonterminal, he]
  | nt sym idx =>
    rw [Item.outside_is_nonterminal, he] at hnt
    cases hnt

theorem stepShift_no_err {c : PConfig}
    (hm : (stringTruthy c.string || graphTruthy c.graph) = true)
    (st : PState) (item : Item) (hcl : item.closed = false)
    (hnt : item.outside_is_nonterminal = false) :
    ∃ st', stepShift c st item = .ok st' := by
  unfold stepShift
  rcases Bool.eq_false_or_eq_true (stringTruthy c.string) with hs | hs <;>
    rcases Bool.eq_false_or_eq_true (graphTruthy c.graph) with hg | hg
  · rw [if_pos (show (stringTruthy c.string && graphTruthy c.graph) = true from
      by rw [hs, hg]; rfl)]
    rcases Bool.eq_false_or_eq_true item.outside_word_is_nonterminal with hw | hw
    · rw [if_neg (show ¬((!item.outside_word_is_nonterminal) = true) from
        by rw [hw]; simp)]
      rw [if_neg (show ¬(item.outside_edge_is_nonterminal = true) from
        by rw [outside_edge_of_shift hcl hnt hw]; simp)]
      exact ⟨_, rfl⟩
    · rw [if_pos (show (!item.outside_word_is_nonterminal) = true from
        by rw [hw]; rfl)]
      exact ⟨_, rfl⟩
  · rw [if_neg (show ¬((stringTruthy c.string && graphTruthy c.graph) = true)
      from by rw [hs, hg]; simp)]
    rw [if_pos hs]
    exact ⟨_, rfl⟩
  · rw [if_neg (show ¬((stringTruthy c.string && graphTruthy c.graph) = true)
      from by rw [hs]; simp)]
    rw [if_neg (show ¬(stringTruthy c.string = true) from by rw [hs]; simp)]
    rw [if_neg (show ¬((!graphTruthy c.graph) = true) from by rw [hg]; simp)]
    exact ⟨_, rfl⟩
  · rw [hs, hg] at hm
    simp at hm

theorem processItem_no_err {c : PConfig}
    (hm : (stringTruthy c.string || graphTruthy c.graph) = true)
    (st : PState) (item : Item) :
    ∃ st', processItem c st item = .ok st' := by
  unfold processItem
  rcases Bool.eq_false_or_eq_true item.closed with hcl | hcl
  · rw [if_pos hcl]
    exact ⟨_, rfl⟩
  · rw [if_neg (by simp [hcl])]
    rcases Bool.eq_false_or_eq_true item.outside_is_nonterminal with hnt | hnt
    · rw [if_pos hnt]
      exact ⟨_, rfl⟩
    · rw [if_neg (by simp [hnt])]
      exact stepShift_no_err hm st item hcl hnt

theorem parseLoop_no_err {c : PConfig}
    (hm : (stringTruthy c.string || graphTruthy c.graph) = true) :
    ∀ (fuel : Nat) (st : PState), ∃ st', parseLoop c fuel st = .ok st' := by
  intro fuel
  induction fuel with
  | zero => intro st; exact ⟨st, rfl⟩
  | succ n ih =>
    intro st
    cases hq : st.queue with
    | nil =>
      refine ⟨st, ?_⟩
      unfold parseLoop
      rw [hq]
    | cons item rest =>
      obtain ⟨st1, h1⟩ := processItem_no_err hm (popState st item rest) item
      obtain ⟨st', h2⟩ := ih st1
      refine ⟨st', ?_⟩
      unfold parseLoop
      rw [hq]
      dsimp only
      rw [h1]
      exact h2

/-! ## Helper characterizations used by the claim theorems -/

theorem successfulParse_iff (a : String) (s : Option (List String))
    (gr : Option Graph) (ss gs : Int) (it : Item) :
    successfulParse a s gr ss gs it = true ↔
      (it.rule.symbol = a ∧
        (if stringTruthy s && graphTruthy gr then
          (it.spanLen = ss ∧ (it.shiftedLen : Int) = gs)
         else if stringTruthy s then it.spanLen = ss
         else (it.shiftedLen : Int) = gs)) := by
  unfold successfulParse
  split
  · next hsym =>
    constructor
    · intro h
      cases h
    · rintro ⟨h1, _⟩
      exact absurd h1 hsym
  · next hsym =>
    rw [not_not] at hsym
    split
    · simp only [Bool.and_eq_true, decide_eq_true_eq]
      exact ⟨fun h => ⟨hsym, h⟩, fun h => h.2⟩
    · split
      · simp only [decide_eq_true_eq]
        exact ⟨fun h => ⟨hsym, h⟩, fun h => h.2⟩
      · simp only [decide_eq_true_eq]
        exact ⟨fun h => ⟨hsym, h⟩, fun h => h.2⟩

theorem chartOf_prods_nonempty (g : Grammar) (s : Option (List String))
    (gr : Option Graph) (fuel : Nat) (k : ChartKey) (p : Production)
    (hp : p ∈ chartOf g s gr fuel k) : p ≠ [] := by
  unfold chartOf at hp
  revert hp
  cases h : parseState g s gr fuel with
  | error e =>
    intro hp
    exact absurd hp (List.not_mem_nil p)
  | ok st =>
    intro hp
    exact (parseState_inv h).prodsNe k p hp

theorem cky_ok_walks {chart : ChartKey → List Production} {fuel : Nat}
    {pruned : List (ChartKey × RealProds)}
    (h : ckyChart fuel chart = .ok pruned) :
    ∀ k ∈ reachList fuel chart, ckyKeep k = true →
      ∃ rp, walkAux chart fuel k [] = .ok rp := by
  unfold ckyChart at h
  revert h
  cases hr : reachAux chart fuel [ChartKey.start] [] with
  | none =>
    intro h
    exact Except.noConfusion h
  | some v =>
    intro h
    have hv : reachList fuel chart = v := by
      unfold reachList
      rw [hr]
      rfl
    rw [hv]
    exact build_ok_pointwise h

/-! ## Claim theorems -/

/-- Claim C1: in the raw chart of any parse call, a production is recorded
under the distinguished goal key `'START'` for an item if and only if the
item was processed by the loop, is closed, its rule's left-hand symbol is
the grammar's start symbol, and it covers the entire input — the consumed
span length for a string parse, the matched-edge count for a graph parse,
and both simultaneously for a synchronous parse; no partial-coverage item
is ever attached to the goal key. -/
theorem claim1_goal_key_iff (g : Grammar) (s : Option (List String))
    (gr : Option Graph) (fuel : Nat) (it : Item) :
    [it] ∈ chartOf g s gr fuel ChartKey.start ↔
      (it ∈ visitedOf g s gr fuel ∧ it.closed = true ∧
        it.rule.symbol = g.start_symbol ∧
        (if stringTruthy s && graphTruthy gr then
          (it.spanLen = stringSizeOf s ∧ (it.shiftedLen : Int) = graphSizeOf gr)
         else if stringTruthy s then it.spanLen = stringSizeOf s
         else (it.shiftedLen : Int) = graphSizeOf gr)) := by
  unfold chartOf visitedOf
  cases h : parseState g s gr fuel with
  | error e =>
    dsimp only
    simp
  | ok st =>
    dsimp only
    have inv := parseState_inv h
    constructor
    · intro hmem
      obtain ⟨it', heq, hvis, hcl, hsp⟩ := inv.startProds _ hmem
      have hit : it = it' := by
        injection heq with h1 _
      subst hit
      have hsp' := (successfulParse_iff g.start_symbol s gr
        (stringSizeOf s) (graphSizeOf gr) it).mp hsp
      exact ⟨hvis, hcl, hsp'.1, hsp'.2⟩
    · rintro ⟨hvis, hcl, hsym, hcov⟩
      exact inv.goalRec it hvis hcl
        ((successfulParse_iff g.start_symbol s gr
          (stringSizeOf s) (graphSizeOf gr) it).mpr ⟨hsym, hcov⟩)

/-- Claim C10: every production recorded under the goal key `'START'` is a
one-tuple whose sole antecedent is a closed item that the loop had popped
(visited); the goal key never carries a zero- or two-antecedent
production. -/
theorem claim10_goal_unary (g : Grammar) (s : Option (List String))
    (gr : Option Graph) (fuel : Nat) (p : Production)
    (hp : p ∈ chartOf g s gr fuel ChartKey.start) :
    ∃ it, p = [it] ∧ it.closed = true ∧ it ∈ visitedOf g s gr fuel := by
  unfold chartOf at hp
  revert hp
  unfold visitedOf
  cases h : parseState g s gr fuel with
  | error e =>
    intro hp
    exact absurd hp (List.not_mem_nil p)
  | ok st =>
    intro hp
    obtain ⟨it, heq, hvis, hcl, _⟩ := (parseState_inv h).startProds p hp
    exact ⟨it, heq, hcl, hvis⟩

/-- Witness for C1 at a successful concrete parse. -/
theorem claim1_goal_key_iff_witness :
    [itemSa] ∈ chartOf gramSa (some ["a"]) none 10 ChartKey.start :=
  (claim1_goal_key_iff gramSa (some ["a"]) none 10 itemSa).mpr (by decide)

/-- Witness for C10 at a successful concrete parse (`S -> "a"` on the
input string `a`). -/
theorem claim10_goal_unary_witness :
    [itemSa] ∈ chartOf gramSa (some ["a"]) none 10 ChartKey.start ∧
      ∃ it, ([itemSa] : Production) = [it] ∧ it.closed = true ∧
        it ∈ visitedOf gramSa (some ["a"]) none 10 :=
  ⟨by decide, claim10_goal_unary gramSa (some ["a"]) none 10 [itemSa] (by decide)⟩

/-- Claim C3: within one parse call the ghost trace of `can_complete`
evaluations contains no pair twice (each ordered (item, candidate) pair is
evaluated at most once, whatever wake-up re-enqueues happen), and every
evaluated pair was recorded in the `attempted` memo. -/
theorem claim3_attempted_memo (g : Grammar) (s : Option (List String))
    (gr : Option Graph) (fuel : Nat) :
    (traceOf g s gr fuel).Nodup ∧
      ∀ pr ∈ traceOf g s gr fuel, pr ∈ attemptedOf g s gr fuel := by
  unfold traceOf attemptedOf
  cases h : parseState g s gr fuel with
  | error e =>
    dsimp only
    simp
  | ok st =>
    dsimp only
    exact ⟨(parseState_inv h).traceNodup, (parseState_inv h).traceSub⟩

/-- Witness for C3 at a concrete parse that performs a completion
(`S -> A, A -> "a"` on the input `a`, where the wake-up path is
exercised). -/
theorem claim3_attempted_memo_witness :
    (axSA, itemA1) ∈ traceOf gramSA (some ["a"]) none 20 ∧
      (traceOf gramSA (some ["a"]) none 20).Nodup ∧
      (axSA, itemA1) ∈ attemptedOf gramSA (some ["a"]) none 20 :=
  ⟨by decide, (claim3_attempted_memo gramSA (some ["a"]) none 20).1,
    (claim3_attempted_memo gramSA (some ["a"]) none 20).2 _ (by decide)⟩

/-- Claim C6: (i) the engine records no empty production tuple, so the
arity-0 case cannot arise from a parse; (ii) during the regrouping walk, a
pseudo-item whose nonempty production group has mixed antecedent counts,
or a uniform antecedent count other than 1 or 2, makes the walk abort with
an assertion failure rather than continue; (iii) whenever `cky_chart`
returns normally, the regrouping walk of every retained reachable key ran
to completion (so no group it visited was malformed). -/
theorem claim6_arity_invariant :
    (∀ (g : Grammar) (s : Option (List String)) (gr : Option Graph)
      (fuel : Nat) (k : ChartKey) (p : Production),
        p ∈ chartOf g s gr fuel k → p ≠ []) ∧
    (∀ (chart : ChartKey → List Production) (fuel : Nat) (pitem : Item)
      (acc : RealProds),
        chart (ChartKey.item pitem) ≠ [] →
        pitem.rule.symbol ≠ "PARTIAL" →
        (∀ p ∈ chart (ChartKey.item pitem), p ≠ []) →
        pyDedup ((chart (ChartKey.item pitem)).map (fun p => p.length)) ≠ [1] →
        pyDedup ((chart (ChartKey.item pitem)).map (fun p => p.length)) ≠ [2] →
        walkAux chart (fuel + 1) (ChartKey.item pitem) acc =
          .error .assertionError) ∧
    (∀ (chart : ChartKey → List Production) (fuel : Nat)
      (pruned : List (ChartKey × RealProds)),
        ckyChart fuel chart = .ok pruned →
        ∀ k ∈ reachList fuel chart, ckyKeep k = true →
          ∃ rp, walkAux chart fuel k [] = .ok rp) :=
  ⟨chartOf_prods_nonempty,
   fun chart fuel pitem acc h1 h2 h3 h4 h5 =>
     walkAux_arity_abort fuel acc h1 h2 h3 h4 h5,
   fun chart fuel pruned h => cky_ok_walks h⟩

/-- Witness for C6: a mixed-arity group and a uniform arity-3 group both
abort the walk with an assertion failure, and the singleton production of
a successful parse is nonempty. -/
theorem claim6_arity_invariant_witness :
    walkAux ch6mixed 3 (ChartKey.item p5) [] =
      Except.error PyErr.assertionError ∧
    walkAux ch6tern 3 (ChartKey.item p5) [] =
      Except.error PyErr.assertionError ∧
    ([itemSa] : Production) ≠ [] :=
  ⟨claim6_arity_invariant.2.1 ch6mixed 2 p5 [] (by decide) (by decide)
     (by decide) (by decide) (by decide),
   claim6_arity_invariant.2.1 ch6tern 2 p5 [] (by decide) (by decide)
     (by decide) (by decide) (by decide),
   claim6_arity_invariant.1 gramSa (some ["a"]) none 10 ChartKey.start
     [itemSa] (by decide)⟩

/-- Claim C4 (counterexample): the closed item `iB1` is a key of the
pruned chart although the spec-worded traversal — which pushes antecedents
only for the goal key and closed items — never reaches it (it is recorded
only inside a production of the unclosed bridging item `iS2`, which the
source's traversal expands as well). -/
theorem claim4_counterexample :
    ChartKey.item iB1 ∈ ckyKeys 50 ch4 ∧
    ChartKey.item iB1 ∉ specReachList 50 ch4 ∧
    (specReachAux ch4 50 [ChartKey.start] []).isSome = true ∧
    Item.closed iB1 = true := by
  decide

/-- Claim C4 (amended): for every raw chart on which extraction returns
normally, the key set of the pruned chart is exactly the goal key together
with the closed items reachable from the goal through antecedents of
recorded productions of *all* reached keys (closed or not), restricted to
those whose regrouped production map is nonempty; unclosed bridging items
are never keys, and items with an empty regrouped map are dropped. -/
theorem claim4_pruned_keys_amended (chart : ChartKey → List Production)
    (fuel : Nat) (k : ChartKey) (hok : ckyIsOk fuel chart = true) :
    k ∈ ckyKeys fuel chart ↔
      (Reaches chart k ∧ ckyKeep k = true ∧
        ∃ rp, walkAux chart fuel k [] = .ok rp ∧ rp ≠ []) := by
  unfold ckyIsOk at hok
  revert hok
  unfold ckyKeys
  cases hc : ckyChart fuel chart with
  | error e =>
    intro hok
    cases hok
  | ok pruned =>
    intro _
    unfold ckyChart at hc
    revert hc
    cases hr : reachAux chart fuel [ChartKey.start] [] with
    | none =>
      intro hc
      exact Except.noConfusion hc
    | some v =>
      intro hc
      have hb := build_keys hc k
      simp only [List.map_nil, List.not_mem_nil, false_or] at hb
      rw [hb, reach_iff hr k]

/-- Witness for the amended C4 at the concrete chart `ch4` and the goal
key. -/
theorem claim4_pruned_keys_amended_witness :
    ckyIsOk 50 ch4 = true ∧
      (ChartKey.start ∈ ckyKeys 50 ch4 ↔
        (Reaches ch4 ChartKey.start ∧ ckyKeep ChartKey.start = true ∧
          ∃ rp, walkAux ch4 50 ChartKey.start [] = .ok rp ∧ rp ≠ [])) :=
  ⟨by decide, claim4_pruned_keys_amended ch4 50 ChartKey.start (by decide)⟩

/-- Claim C5 (counterexample): in the chart `ch5m` the two binary
productions of `p5` have first antecedents with *different* outside
symbols — `l5` needs `(A, 0)` while `l5b` needs `(B, 0)` — yet the walk
produces a single entry keyed `(A, 0)` whose value also contains `r5b`,
the second antecedent of the production that does **not** share that
outside symbol; so the entry's value is not the set of second antecedents
of the sharing productions only, as the claim states. -/
theorem claim5_counterexample :
    walkAux ch5m 3 (ChartKey.item p5) [] =
      Except.ok [(RPKey.sym "A" 0, [r5, r5b])] ∧
    Item.outside_symbol l5 = "A" ∧ Item.outside_nt_index l5 = 0 ∧
    Item.outside_symbol l5b = "B" ∧
    ch5m (ChartKey.item p5) = [[l5, r5], [l5b, r5b]] := by
  decide

/-- Witness for the amended C5 at the uniform chart `ch5u`. -/
theorem claim5_grouping_amended_witness :
    walkAux ch5u 3 (ChartKey.item p5) [] =
      walkAux ch5u 2 (ChartKey.item l5)
        (insertRP [] (RPKey.sym (Item.outside_symbol l5)
          (Item.outside_nt_index l5))
          ((ch5u (ChartKey.item p5)).map (fun p => p.getD 1 dItem))) :=
  claim5_grouping_amended 2 [] (by decide) (by decide)
    (by
      intro p hp
      rw [show ch5u (ChartKey.item p5) = [[l5, r5]] from by decide] at hp
      simp only [List.mem_singleton] at hp
      exact ⟨r5, hp⟩)

/-- Claim C7: reaching a closed `'PARTIAL'` marker item with exactly one
recorded production does not re-expose that production — `real_productions`
is a dict and the branch calls `.append` on it, so forest extraction
raises `AttributeError` instead. -/
theorem claim7_partial_marker :
    rP.symbol = "PARTIAL" ∧ Item.closed iP = true ∧
    (ch7 (ChartKey.item iP)).length = 1 ∧
    ckyChart 30 ch7 = Except.error PyErr.attributeError := by
  decide

/-- Claim C8: parsing the empty string (no graph) does not run as a string
parse: the empty string is falsy, so `parse` selects the graph item class
with no graph present, and the first open terminal item hits
`assert graph`, raising `AssertionError` instead of returning an
empty-goal chart. -/
theorem claim8_empty_string :
    stringTruthy (some ([] : List String)) = false ∧
    modeOf (some []) none = Mode.herg ∧
    parseErr gramSa (some []) none 10 = some PyErr.assertionError := by
  decide

theorem except_mapM_length {α β ε : Type} (f : α → Except ε β) :
    ∀ {l : List α} {res : List β}, l.mapM f = .ok res →
      res.length = l.length := by
  intro l
  induction l with
  | nil =>
    intro res h
    rw [List.mapM_nil] at h
    have h' : Except.ok ([] : List β) = Except.ok res := h
    injection h' with h'
    rw [← h']
    rfl
  | cons x xs ih =>
    intro res h
    rw [List.mapM_cons] at h
    cases hx : f x with
    | error e =>
      rw [hx] at h
      exact Except.noConfusion h
    | ok y =>
      rw [hx] at h
      cases hxs : xs.mapM f with
      | error e =>
        rw [hxs] at h
        exact Except.noConfusion h
      | ok ys =>
        rw [hxs] at h
        have h' : Except.ok (y :: ys) = Except.ok res := h
        injection h' with h'
        rw [← h']
        simp [ih hxs]

/-- The working half of the stream interface: `parse_graphs` yields one
pruned forest per input graph, in order. -/
theorem parseGraphs_one_per_graph (g : Grammar) (graphs : List Graph)
    (fuel : Nat) (res : List (List (ChartKey × RealProds)))
    (h : parseGraphs g graphs fuel = .ok res) :
    res.length = graphs.length :=
  except_mapM_length _ h

/-- Demonstration of `parseGraphs_one_per_graph` on a one-graph stream. -/
theorem parseGraphs_one_per_graph_demo :
    ([prunedGrOne] : List (List (ChartKey × RealProds))).length =
      [grOne].length :=
  parseGraphs_one_per_graph gramSe [grOne] 10 [prunedGrOne] (by decide)

/-- Claim C9: `parse_strings` yields no forest at all — its generator body
evaluates the undefined name `make_string_filter_cache` (its definition is
commented out in the source), so the first advance raises `NameError` for
every grammar and every input stream, instead of yielding one pruned
forest per input string as claimed.  (The `parse_graphs` half of the
claim does hold — see `parseGraphs_one_per_graph`.) -/
theorem claim9_stream_entry_points (g : Grammar)
    (strings : List (List String)) (fuel : Nat) :
    parseStrings g strings fuel = Except.error PyErr.nameError := rfl

/-- Claim C2 (counterexample): for the empty-string input (no graph) the
goal test is unsatisfiable — no item whatsoever can pass it, because the
graph branch compares the matched-edge count against the sentinel `-1` —
yet `parse` raises `AssertionError` rather than returning a chart with an
empty goal production set. -/
theorem claim2_counterexample :
    (∀ it : Item, successfulParse gramSa.start_symbol (some []) none
      (stringSizeOf (some [])) (graphSizeOf none) it = false) ∧
    parseErr gramSa (some []) none 10 = some PyErr.assertionError := by
  constructor
  · intro it
    cases hb : successfulParse gramSa.start_symbol (some []) none
      (stringSizeOf (some [])) (graphSizeOf none) it
    · rfl
    · exfalso
      have h := (successfulParse_iff gramSa.start_symbol (some []) none
        (stringSizeOf (some [])) (graphSizeOf none) it).mp hb
      rw [show (stringTruthy (some ([] : List String)) &&
        graphTruthy none) = false from rfl] at h
      rw [show stringTruthy (some ([] : List String)) = false from rfl] at h
      simp only [Bool.false_eq_true, if_false] at h
      have h2 := h.2
      rw [show graphSizeOf none = -1 from rfl] at h2
      omega
  · decide

/-- Claim C2 (amended): for every input whose mode dispatch matches it —
that is, the string is nonempty or a graph is supplied — `parse` raises no
exception, and if no item processed by the search satisfies the goal test
then the raw chart carries an empty production set under the goal key and
forest extraction yields an empty forest, so a caller iterating a stream
proceeds to the next input.  (Counterexample `claim2_counterexample`
shows the claim is false as stated for the empty-string input, which
misroutes to a graph-mode parse and raises.) -/
theorem claim2_failure_recoverable (g : Grammar) (s : Option (List String))
    (gr : Option Graph) (fuel fuel2 : Nat)
    (hm : (stringTruthy s || graphTruthy gr) = true) :
    parseErr g s gr fuel = none ∧
      ((∀ it ∈ visitedOf g s gr fuel, successfulParse g.start_symbol s gr
        (stringSizeOf s) (graphSizeOf gr) it = false) →
       chartOf g s gr fuel ChartKey.start = [] ∧
         ckyChart (fuel2 + 2) (chartOf g s gr fuel) = .ok []) := by
  obtain ⟨st', hrun⟩ :=
    parseLoop_no_err (c := mkConfig g s gr) hm fuel (initState g s gr)
  have hps : parseState g s gr fuel = .ok st' := hrun
  constructor
  · unfold parseErr
    rw [hps]
  · intro hunsat
    have hempty : chartOf g s gr fuel ChartKey.start = [] := by
      unfold chartOf
      rw [hps]
      rw [List.eq_nil_iff_forall_not_mem]
      intro p hp
      obtain ⟨it, _, hvis, _, hsp⟩ := (parseState_inv hps).startProds p hp
      have hv : it ∈ visitedOf g s gr fuel := by
        unfold visitedOf
        rw [hps]
        exact hvis
      have hfalse := hunsat it hv
      have hsp' : successfulParse g.start_symbol s gr (stringSizeOf s)
          (graphSizeOf gr) it = true := hsp
      rw [hfalse] at hsp'
      cases hsp'
    exact ⟨hempty, ckyChart_empty_goal fuel2 hempty⟩

/-- Witness for the amended C2 at a failing concrete parse
(`S -> A, A -> "a"` on the input string `b`). -/
theorem claim2_failure_recoverable_witness :
    parseErr gramSA (some ["b"]) none 10 = none ∧
      (chartOf gramSA (some ["b"]) none 10 ChartKey.start = [] ∧
        ckyChart 5 (chartOf gramSA (some ["b"]) none 10) = .ok []) :=
  ⟨(claim2_failure_recoverable gramSA (some ["b"]) none 10 3 (by decide)).1,
   (claim2_failure_recoverable gramSA (some ["b"]) none 10 3 (by decide)).2
     (by decide)⟩
